import Mathlib

/-!
Verification development for the databend repository under study.

Shallow embedding of:
* `src/fusestore/store/src/meta_service/sled_tree.rs` (`SledTree` and its
  key-space typed operations over an ordered byte-keyed store),
* `src/query/src/sessions/session.rs` (`Session` mutable state, `kill`),
* `src/fusequery/query/src/pipelines/processors/pipeline_builder.rs`
  (`PipelineBuilder::build` and its visitors).

Machine integers of the source are modelled as `Nat` (no arithmetic in the
covered code overflows), byte strings as `List Nat`, fallible code as
`Except`.  Components of the repository that are not part of the sources
(the sled store itself, the key-space codecs, `walk_preorder` /
`walk_postorder`, the `Pipeline` container) are modelled from the spec and
marked so in their doc comments.
-/

namespace DatabendSpec

/-! ## Byte strings and their order (model of sled's unsigned lex order) -/

/-- Byte strings: keys and values of the underlying sled tree. -/
abbrev Bytes := List Nat

/-- Lexicographic strict order on byte strings, as sled compares keys:
componentwise on bytes, a strict prefix is smaller. -/
def bsLt : Bytes → Bytes → Bool
  | [], [] => false
  | [], _ :: _ => true
  | _ :: _, [] => false
  | a :: as, b :: bs => if a < b then true else if b < a then false else bsLt as bs

/-! ## Bounds and ranges (model of `std::ops::Bound` / `RangeBounds`) -/

/-- A single range bound, mirroring Rust `std::ops::Bound`. -/
inductive SBound (α : Type) where
  | unbounded : SBound α
  | included (b : α) : SBound α
  | excluded (b : α) : SBound α
deriving DecidableEq

/-- A range is a pair of bounds `(start_bound, end_bound)`, mirroring
Rust `RangeBounds`. -/
abbrev KRange (α : Type) := SBound α × SBound α

/-- Whether a byte key satisfies the start bound, using sled's byte order
(the semantics of Rust `RangeBounds::contains` at the byte level). -/
def lowerOkB : SBound Bytes → Bytes → Bool
  | SBound.unbounded, _ => true
  | SBound.included a, k => !(bsLt k a)
  | SBound.excluded a, k => bsLt a k

/-- Whether a byte key satisfies the end bound. -/
def upperOkB : SBound Bytes → Bytes → Bool
  | SBound.unbounded, _ => true
  | SBound.included b, k => !(bsLt b k)
  | SBound.excluded b, k => bsLt k b

/-- Membership of a byte key in a byte range. -/
def inBRange (r : KRange Bytes) (k : Bytes) : Bool :=
  lowerOkB r.1 k && upperOkB r.2 k

/-- Whether a logical key satisfies the start bound, in the key type's own
order (the semantics of Rust `RangeBounds::contains`). -/
def lowerOkK {K : Type} [LinearOrder K] : SBound K → K → Bool
  | SBound.unbounded, _ => true
  | SBound.included a, k => decide (a ≤ k)
  | SBound.excluded a, k => decide (a < k)

/-- Whether a logical key satisfies the end bound. -/
def upperOkK {K : Type} [LinearOrder K] : SBound K → K → Bool
  | SBound.unbounded, _ => true
  | SBound.included b, k => decide (k ≤ b)
  | SBound.excluded b, k => decide (k < b)

/-- Membership of a logical key in a logical range. -/
def inKRange {K : Type} [LinearOrder K] (r : KRange K) (k : K) : Bool :=
  lowerOkK r.1 k && upperOkK r.2 k

/-! ## Errors and key-space codecs -/

/-- Error taxonomy of the meta store layer (`common_exception::ErrorCode`):
`damaged` is `MetaStoreDamaged` with its human context string, `decode`
is `MetaDecode`. -/
inductive MetaErr where
  | damaged (ctx : String) : MetaErr
  | decode (msg : String) : MetaErr
deriving DecidableEq

/-- Modelled from the spec: a `SledKeySpace` descriptor
(`sled_key_space.rs` is not among the sources).  It binds a namespace to a
key codec, a value codec and a display `NAME`; `serialize_key` must be
total and order preserving, deserialization may fail with `MetaDecode`. -/
structure KeySpace (K V : Type) where
  name : String
  serializeKey : K → Bytes
  deserializeKey : Bytes → Except MetaErr K
  serializeValue : V → Bytes
  deserializeValue : Bytes → Except MetaErr V

/-- Modelled from the spec: `KV::serialize_range` maps each bound of a key
range through `serialize_key`, faithfully keeping the three bound
flavors. -/
def serializeRange {K V : Type} (ks : KeySpace K V) (r : KRange K) : KRange Bytes :=
  (match r.1 with
    | SBound.unbounded => SBound.unbounded
    | SBound.included a => SBound.included (ks.serializeKey a)
    | SBound.excluded a => SBound.excluded (ks.serializeKey a),
   match r.2 with
    | SBound.unbounded => SBound.unbounded
    | SBound.included b => SBound.included (ks.serializeKey b)
    | SBound.excluded b => SBound.excluded (ks.serializeKey b))

/-! ## The underlying ordered byte tree (model of `sled::Tree`) -/

/-- Modelled from the spec: the state of one `sled::Tree` — a finite map
from byte keys to byte values, kept as a list sorted in strictly
ascending byte order. -/
abbrev STree := List (Bytes × Bytes)

/-- Look up the entry stored at a byte key. -/
def treeFindEntry (k : Bytes) (l : STree) : Option (Bytes × Bytes) :=
  l.find? (fun kv => kv.1 == k)

/-- Insert a byte key-value pair keeping the ascending key order, returning
the new tree and the previous value at the key, as `sled::Tree::insert`. -/
def treeInsert (k v : Bytes) : STree → STree × Option Bytes
  | [] => ([(k, v)], none)
  | kv :: t =>
    if bsLt k kv.1 then ((k, v) :: kv :: t, none)
    else if k = kv.1 then ((k, v) :: t, some kv.2)
    else
      let r := treeInsert k v t
      (kv :: r.1, r.2)

/-- Remove every entry stored at a byte key (there is at most one in a
well-formed tree), as one `remove` of a `sled::Batch`. -/
def treeRemoveKey (k : Bytes) (l : STree) : STree :=
  l.filter (fun kv => !(kv.1 == k))

/-- The entries of the tree whose key falls in a byte range, in ascending
key order: the elements yielded by `sled::Tree::range`. -/
def treeRangeEntries (r : KRange Bytes) (l : STree) : STree :=
  l.filter (fun kv => inBRange r kv.1)

/-- Apply a `sled::Batch` made only of removes. -/
def applyRemoveBatch (keys : List Bytes) (l : STree) : STree :=
  l.filter (fun kv => !(keys.contains kv.1))

/-! ## SledTree (from `sled_tree.rs`) -/

/-- `SledTree`: a named wrapper of one `sled::Tree` with a `sync` flag.
With `sync == false` it wont fsync even when told to
(`sled_tree.rs` lines 26-38). -/
structure SledTree where
  name : String
  sync : Bool
  tree : STree
deriving DecidableEq

/-- Result of a mutating `SledTree` operation: the tree state after the
mutation, the returned value (or error), and whether an fsync
(`flush_async` on the underlying tree) was performed during the call. -/
structure WriteResult (α : Type) where
  state : SledTree
  res : Except MetaErr α
  fsynced : Bool

/-- Whether an `Except` result is a success. -/
def isOkE {α : Type} : Except MetaErr α → Bool
  | Except.ok _ => true
  | Except.error _ => false

/-- `SledTree::contains_key` (`sled_tree.rs` lines 77-88): serialize the key
and probe the underlying tree. -/
def SledTree.contains_key {K V : Type} (ks : KeySpace K V) (t : SledTree) (key : K) : Bool :=
  (treeFindEntry (ks.serializeKey key) t.tree).isSome

/-- `SledTree::get` (`sled_tree.rs` lines 90-106): serialize the key, fetch
the raw value, deserialize it when present. -/
def SledTree.get {K V : Type} (ks : KeySpace K V) (t : SledTree) (key : K) :
    Except MetaErr (Option V) :=
  match treeFindEntry (ks.serializeKey key) t.tree with
  | none => Except.ok none
  | some kv =>
    match ks.deserializeValue kv.2 with
    | Except.error e => Except.error e
    | Except.ok v => Except.ok (some v)

/-- `SledTree::last` (`sled_tree.rs` lines 108-128): take the full key-space
range, iterate it reversed, deserialize the first item. -/
def SledTree.last {K V : Type} (ks : KeySpace K V) (t : SledTree) :
    Except MetaErr (Option (K × V)) :=
  let range := serializeRange ks (SBound.unbounded, SBound.unbounded)
  match (treeRangeEntries range t.tree).getLast? with
  | none => Except.ok none
  | some kv =>
    match ks.deserializeKey kv.1 with
    | Except.error e => Except.error e
    | Except.ok k =>
      match ks.deserializeValue kv.2 with
      | Except.error e => Except.error e
      | Except.ok v => Except.ok (some (k, v))

/-- `SledTree::remove` (`sled_tree.rs` lines 130-152): remove the serialized
key, then `flush_async(flush)` (fsync iff `flush && sync` — this happens
before the previous value is deserialized), then deserialize the previous
value. -/
def SledTree.remove {K V : Type} (ks : KeySpace K V) (t : SledTree) (key : K)
    (flush : Bool) : WriteResult (Option V) :=
  let bk := ks.serializeKey key
  let removed := treeFindEntry bk t.tree
  let t2 : SledTree := { t with tree := treeRemoveKey bk t.tree }
  let fsynced := flush && t.sync
  match removed with
  | none => { state := t2, res := Except.ok none, fsynced := fsynced }
  | some kv =>
    match ks.deserializeValue kv.2 with
    | Except.error e => { state := t2, res := Except.error e, fsynced := fsynced }
    | Except.ok v => { state := t2, res := Except.ok (some v), fsynced := fsynced }

/-- `SledTree::range_delete` (`sled_tree.rs` lines 154-194): serialize the
range, collect the keys found in it into a batch of removes, apply the
batch atomically, then fsync iff `flush && sync`. -/
def SledTree.range_delete {K V : Type} (ks : KeySpace K V) (t : SledTree)
    (r : KRange K) (flush : Bool) : WriteResult Unit :=
  let sledRange := serializeRange ks r
  let keys := (treeRangeEntries sledRange t.tree).map Prod.fst
  { state := { t with tree := applyRemoveBatch keys t.tree },
    res := Except.ok (),
    fsynced := flush && t.sync }

/-- `SledTree::range_keys` (`sled_tree.rs` lines 196-218): the deserialized
keys found in the range, ascending. -/
def SledTree.range_keys {K V : Type} (ks : KeySpace K V) (t : SledTree)
    (r : KRange K) : Except MetaErr (List K) :=
  (treeRangeEntries (serializeRange ks r) t.tree).foldr
    (fun kv acc =>
      match ks.deserializeKey kv.1, acc with
      | Except.error e, _ => Except.error e
      | Except.ok k, Except.ok ks2 => Except.ok (k :: ks2)
      | Except.ok _, Except.error e => Except.error e)
    (Except.ok [])

/-- `SledTree::append` (`sled_tree.rs` lines 245-272): put every serialized
pair into one batch, apply it, then fsync unconditionally when
`sync == true`. -/
def SledTree.append {K V : Type} (ks : KeySpace K V) (t : SledTree)
    (kvs : List (K × V)) : WriteResult Unit :=
  let t2 := kvs.foldl
    (fun l kv => (treeInsert (ks.serializeKey kv.1) (ks.serializeValue kv.2) l).1)
    t.tree
  { state := { t with tree := t2 }, res := Except.ok (), fsynced := t.sync }

/-- `SledTree::append_values` (`sled_tree.rs` lines 274-308): like `append`
but each key is extracted from its value through `SledValueToKey::to_key`
(passed here as the function `toKey`); fsync unconditionally when
`sync == true`. -/
def SledTree.append_values {K V : Type} (ks : KeySpace K V) (toKey : V → K)
    (t : SledTree) (values : List V) : WriteResult Unit :=
  let t2 := values.foldl
    (fun l v => (treeInsert (ks.serializeKey (toKey v)) (ks.serializeValue v) l).1)
    t.tree
  { state := { t with tree := t2 }, res := Except.ok (), fsynced := t.sync }

/-- `SledTree::insert` (`sled_tree.rs` lines 310-349): insert the serialized
pair, deserialize the previous value (an early return on a decode error
skips the flush), then fsync unconditionally when `sync == true`.  Note
`insert` takes no flush argument. -/
def SledTree.insert {K V : Type} (ks : KeySpace K V) (t : SledTree) (key : K)
    (value : V) : WriteResult (Option V) :=
  let r := treeInsert (ks.serializeKey key) (ks.serializeValue value) t.tree
  let t2 : SledTree := { t with tree := r.1 }
  match r.2 with
  | none => { state := t2, res := Except.ok none, fsynced := t.sync }
  | some prev =>
    match ks.deserializeValue prev with
    | Except.error e => { state := t2, res := Except.error e, fsynced := false }
    | Except.ok v => { state := t2, res := Except.ok (some v), fsynced := t.sync }

/-- `SledTree::insert_value` (`sled_tree.rs` lines 351-360): retrieve the key
from the value, delegate to `insert`. -/
def SledTree.insert_value {K V : Type} (ks : KeySpace K V) (toKey : V → K)
    (t : SledTree) (value : V) : WriteResult (Option V) :=
  SledTree.insert ks t (toKey value) value

/-! ## Error context strings of `sled_tree.rs`

Each definition embeds the `format!` expression passed to
`map_err_to_code(ErrorCode::MetaStoreDamaged, ...)` at the cited line: the
context string the error would carry if the underlying store reported an
I/O failure in that operation. -/

/-- Context of `contains_key` failures (`sled_tree.rs` line 84):
`format!("contains_key: {}:{}", self.name, key)`. -/
def contains_key_context (treeName keyStr : String) : String :=
  "contains_key: " ++ treeName ++ ":" ++ keyStr

/-- Context of `get` failures (`sled_tree.rs` line 97):
`format!("get: {}:{}", self.name, key)`. -/
def get_context (treeName keyStr : String) : String :=
  "get: " ++ treeName ++ ":" ++ keyStr

/-- Context of `last` failures (`sled_tree.rs` line 122): the fixed string
`"last"`. -/
def last_context : String := "last"

/-- Context of `remove` failures (`sled_tree.rs` line 142):
`format!("removed: {}", key)`. -/
def removed_context (keyStr : String) : String :=
  "removed: " ++ keyStr

/-- Context of `insert` failures (`sled_tree.rs` line 328):
`format!("insert_value {}", key)`. -/
def insert_context (keyStr : String) : String :=
  "insert_value " ++ keyStr

/-- `SledTree::range_message` (`sled_tree.rs` lines 362-375):
`format!("{}:{}/[{:?}, {:?}]", self.name, KV::NAME, start, end)`; used by
every range operation's error context. -/
def range_message (treeName ksName startStr endStr : String) : String :=
  treeName ++ ":" ++ ksName ++ "/[" ++ startStr ++ ", " ++ endStr ++ "]"

/-- Context of `range_delete` iteration failures (`sled_tree.rs` line 170):
`format!("range_delete: {}", range_mes)`. -/
def range_delete_context (treeName ksName startStr endStr : String) : String :=
  "range_delete: " ++ range_message treeName ksName startStr endStr

/-- Context of `append` batch failures (`sled_tree.rs` line 259): the fixed
string `"batch append"`. -/
def append_context : String := "batch append"

/-! ## Substring search (for reasoning about context strings) -/

/-- Whether `pre` is a leading run of `s`. -/
def leadRun : List Char → List Char → Bool
  | [], _ => true
  | _ :: _, [] => false
  | a :: as, b :: bs => a == b && leadRun as bs

/-- Whether `sub` occurs contiguously inside `s`. -/
def hasSub (sub : List Char) : List Char → Bool
  | [] => sub.isEmpty
  | c :: cs => leadRun sub (c :: cs) || hasSub sub cs

/-- Whether the string `sub` occurs contiguously inside the string `s`. -/
def strHasSub (sub s : String) : Bool :=
  hasSub sub.data s.data

/-! ## Session (from `session.rs`) -/

/-- `MutableStatus` (`session.rs` lines 32-39): the mutex-guarded mutable
substate of a session.  The oneshot sender and the shared context are
modelled by opaque tokens (only their presence matters to the covered
code); the settings field is omitted (opaque collaborator). -/
structure MutableStatus where
  abort : Bool
  current_database : String
  client_host : Option String
  io_shutdown_tx : Option Nat
  context_shared : Option Nat
deriving DecidableEq

/-- `Session::try_create` (`session.rs` lines 50-71): the initial mutable
state of every new session. -/
def Session.try_create : MutableStatus :=
  { abort := false
    current_database := "default"
    client_host := none
    io_shutdown_tx := none
    context_shared := none }

/-- `Session::is_aborting` (`session.rs` lines 81-83). -/
def Session.is_aborting (s : MutableStatus) : Bool := s.abort

/-- `Session::get_current_database` (`session.rs` lines 165-168). -/
def Session.get_current_database (s : MutableStatus) : String := s.current_database

/-- `Session::kill` (`session.rs` lines 85-98): set the abort flag; when no
shared context is attached and a shutdown sender is present, take the
sender, send a fresh oneshot through it and block on the reply.  The
returned boolean records whether that send-and-block took place. -/
def Session.kill (s : MutableStatus) : MutableStatus × Bool :=
  let s1 := { s with abort := true }
  if s1.context_shared.isNone then
    match s1.io_shutdown_tx with
    | some _ => ({ s1 with io_shutdown_tx := none }, true)
    | none => (s1, false)
  else (s1, false)

/-- `Session::set_current_database` (`session.rs` lines 160-163). -/
def Session.set_current_database (s : MutableStatus) (db : String) : MutableStatus :=
  { s with current_database := db }

/-- `Session::attach` (`session.rs` lines 145-158): store the client host and
a fresh shutdown sender. -/
def Session.attach (s : MutableStatus) (host : Option String) (chan : Nat) :
    MutableStatus :=
  { s with client_host := host, io_shutdown_tx := some chan }

/-- The state change of `Session::create_context` (`session.rs` lines
116-143) on the mutable state: attach a shared context when none is
attached yet. -/
def Session.attach_context (s : MutableStatus) (ctx : Nat) : MutableStatus :=
  if s.context_shared.isNone then { s with context_shared := some ctx } else s

/-- `Session::force_kill_query` (`session.rs` lines 105-111): take the shared
context (its kill hook is an external collaborator). -/
def Session.force_kill_query (s : MutableStatus) : MutableStatus :=
  { s with context_shared := none }

/-- The session operations that touch the mutable state. -/
inductive SessionOp where
  | setCurrentDatabase (db : String) : SessionOp
  | attach (host : Option String) (chan : Nat) : SessionOp
  | attachContext (ctx : Nat) : SessionOp
  | forceKillQuery : SessionOp
  | kill : SessionOp
deriving DecidableEq

/-- Discriminator: is the operation `kill`? -/
def SessionOp.isKill : SessionOp → Bool
  | SessionOp.kill => true
  | _ => false

/-- Discriminator: is the operation `set_current_database`? -/
def SessionOp.isSetDb : SessionOp → Bool
  | SessionOp.setCurrentDatabase _ => true
  | _ => false

/-- One session operation applied to the mutable state. -/
def sessionStep (s : MutableStatus) : SessionOp → MutableStatus
  | SessionOp.setCurrentDatabase db => Session.set_current_database s db
  | SessionOp.attach host chan => Session.attach s host chan
  | SessionOp.attachContext ctx => Session.attach_context s ctx
  | SessionOp.forceKillQuery => Session.force_kill_query s
  | SessionOp.kill => (Session.kill s).1

/-- A sequence of session operations applied in order. -/
def runOps (s : MutableStatus) (ops : List SessionOp) : MutableStatus :=
  ops.foldl sessionStep s

/-! ## Plan tree and pipeline (from `pipeline_builder.rs`) -/

/-- The transforms the builder can append, with the construction parameters
the claims are about.  `sortPre` stands for `SortPartialTransform`,
`aggrPre` for `AggregatorPartialTransform`, `groupByPre` for
`GroupByPartialTransform` (renamed here only because of lexical
restrictions of this development). -/
inductive Transform where
  | source : Transform
  | remote : Transform
  | projection : Transform
  | filterT : Transform
  | aggrPre : Transform
  | groupByPre : Transform
  | aggrFinal : Transform
  | groupByFinal : Transform
  | sortPre (limit : Option Nat) : Transform
  | sortMerge (limit : Option Nat) : Transform
  | limitT (n : Nat) : Transform
  | merge : Transform
deriving DecidableEq

/-- The sort-limit parameter of a transform, when it is one of the two sort
transforms. -/
def Transform.sortLimitOf : Transform → Option (Option Nat)
  | Transform.sortPre l => some l
  | Transform.sortMerge l => some l
  | _ => none

/-- Whether the transform requires a single input stream (the transforms of
`AggregatorFinal` and `Limit` nodes). -/
def Transform.singleStream : Transform → Bool
  | Transform.aggrFinal => true
  | Transform.groupByFinal => true
  | Transform.limitT _ => true
  | _ => false

/-- Modelled from the spec: a `Pipeline` is an ordered sequence of pipes,
each pipe a list of parallel processors (`Pipeline` lives outside the
sources; §3 of the spec). -/
structure Pipeline where
  pipes : List (List Transform)
deriving DecidableEq

/-- `Pipeline::create`: the empty pipeline. -/
def Pipeline.create : Pipeline := ⟨[]⟩

/-- Modelled from the spec: `Pipeline::reset` clears all pipes. -/
def Pipeline.reset (_p : Pipeline) : Pipeline := ⟨[]⟩

/-- Modelled from the spec: `Pipeline::add_source` adds one processor to the
head (source) pipe, creating it for an empty pipeline. -/
def Pipeline.add_source (p : Pipeline) (t : Transform) : Pipeline :=
  match p.pipes with
  | [] => ⟨[[t]]⟩
  | hd :: tl => ⟨(hd ++ [t]) :: tl⟩

/-- Builder errors: `UnknownPlan` for an unsupported node, and the error an
empty pipeline raises when a transform needs a last pipe. -/
inductive BuildErr where
  | unknownPlan (name : String) : BuildErr
  | emptyPipeline : BuildErr
deriving DecidableEq

/-- Modelled from the spec: `Pipeline::add_simple_transform` appends a new
pipe with one fresh transform per processor of the last pipe (1:1,
requires a last pipe). -/
def Pipeline.add_simple_transform (p : Pipeline) (t : Transform) :
    Except BuildErr Pipeline :=
  match p.pipes.getLast? with
  | none => Except.error BuildErr.emptyPipeline
  | some lp => Except.ok ⟨p.pipes ++ [lp.map (fun _ => t)]⟩

/-- Modelled from the spec: `Pipeline::merge_processor` appends a width-1
pipe holding the merge processor that collapses the last pipe's streams
(requires a last pipe). -/
def Pipeline.merge_processor (p : Pipeline) : Except BuildErr Pipeline :=
  match p.pipes.getLast? with
  | none => Except.error BuildErr.emptyPipeline
  | some _ => Except.ok ⟨p.pipes ++ [[Transform.merge]]⟩

/-- Width of the last pipe (`pipeline.last_pipe()?.nums()`); `none` when the
pipeline is empty. -/
def Pipeline.lastWidth (p : Pipeline) : Option Nat :=
  (p.pipes.getLast?).map List.length

/-- The plan tree consumed by the builder.  Each node keeps exactly the
parameters the builder inspects: `aggrPre`/`aggrFinal` keep whether
`group_expr` is empty, `limit` keeps `n`, `readSource` keeps the number
of partitions of the plan, `stage` keeps the list of
`(executor, sub-plan)` pairs the external `PlanScheduler::reschedule`
answers for it (one entry per pair; the scheduler is an out-of-scope
collaborator, so its reply is an oracle carried on the node). -/
inductive PlanNode where
  | select (input : PlanNode) : PlanNode
  | stage (executors : List String) (input : PlanNode) : PlanNode
  | projection (input : PlanNode) : PlanNode
  | aggrPre (groupEmpty : Bool) (input : PlanNode) : PlanNode
  | aggrFinal (groupEmpty : Bool) (input : PlanNode) : PlanNode
  | filter (input : PlanNode) : PlanNode
  | sort (input : PlanNode) : PlanNode
  | limit (n : Nat) (input : PlanNode) : PlanNode
  | readSource (partitions : Nat) : PlanNode
  | unsupported (name : String) : PlanNode
deriving DecidableEq

/-- Context / pipeline effects the builder performs, in call order:
`ctx.try_set_partitions` of a `ReadSource`, `pipeline.reset()`,
`ctx.reset()`, and the addition of one `RemoteTransform` source. -/
inductive Event where
  | bindPartitions (n : Nat) : Event
  | pipelineReset : Event
  | ctxReset : Event
  | addRemoteSource : Event
deriving DecidableEq

/-- The state the builder threads through the walk: the pipeline under
construction and the trace of its context/pipeline effects. -/
structure BState where
  pipeline : Pipeline
  events : List Event
deriving DecidableEq

/-- Add `n` identical sources (the `for` loops of `visit_stage_plan` and
`visit_read_data_source_plan`). -/
def addSources (t : Transform) : Nat → Pipeline → Pipeline
  | 0, p => p
  | Nat.succ n, p => addSources t n (p.add_source t)

/-- `PipelineBuilder::visit_stage_plan` (`pipeline_builder.rs` lines 77-98):
with a non-empty scheduler reply, reset the pipeline, reset the context,
then add one `RemoteTransform` source per `(address, sub-plan)` pair;
with an empty reply do nothing. -/
def visit_stage_plan (executors : List String) (st : BState) : BState :=
  if executors.isEmpty then st
  else
    { pipeline := addSources Transform.remote executors.length st.pipeline.reset
      events := st.events ++ [Event.pipelineReset, Event.ctxReset]
        ++ executors.map (fun _ => Event.addRemoteSource) }

/-- `PipelineBuilder::visit_projection_plan` (lines 100-108). -/
def visit_projection_plan (st : BState) : Except BuildErr BState := do
  let p ← st.pipeline.add_simple_transform Transform.projection
  Except.ok { st with pipeline := p }

/-- `PipelineBuilder::visit_aggregator_partial_plan` (lines 110-128), renamed
`visit_aggregator_pre_plan` here for lexical reasons: append the plain or
the grouped first-phase aggregator by whether `group_expr` is empty. -/
def visit_aggregator_pre_plan (groupEmpty : Bool) (st : BState) :
    Except BuildErr BState := do
  let p ← st.pipeline.add_simple_transform
    (if groupEmpty then Transform.aggrPre else Transform.groupByPre)
  Except.ok { st with pipeline := p }

/-- `PipelineBuilder::visit_aggregator_final_plan` (lines 130-149): merge to
one stream, then append the plain or grouped final aggregator. -/
def visit_aggregator_final_plan (groupEmpty : Bool) (st : BState) :
    Except BuildErr BState := do
  let p1 ← st.pipeline.merge_processor
  let p2 ← p1.add_simple_transform
    (if groupEmpty then Transform.aggrFinal else Transform.groupByFinal)
  Except.ok { st with pipeline := p2 }

/-- `PipelineBuilder::visit_filter_plan` (lines 151-158). -/
def visit_filter_plan (st : BState) : Except BuildErr BState := do
  let p ← st.pipeline.add_simple_transform Transform.filterT
  Except.ok { st with pipeline := p }

/-- `PipelineBuilder::visit_sort_plan` (lines 160-199): per-lane
`SortPartialTransform(limit)`, per-lane `SortMergeTransform(limit)`, and
when the last pipe is wider than 1 a merge followed by a final
`SortMergeTransform(limit)`. -/
def visit_sort_plan (limit : Option Nat) (st : BState) : Except BuildErr BState := do
  let p1 ← st.pipeline.add_simple_transform (Transform.sortPre limit)
  let p2 ← p1.add_simple_transform (Transform.sortMerge limit)
  match p2.pipes.getLast? with
  | none => Except.error BuildErr.emptyPipeline
  | some lp =>
    if lp.length > 1 then do
      let p3 ← p2.merge_processor
      let p4 ← p3.add_simple_transform (Transform.sortMerge limit)
      Except.ok { st with pipeline := p4 }
    else
      Except.ok { st with pipeline := p2 }

/-- `PipelineBuilder::visit_limit_plan` (lines 201-205): merge to one stream,
append `LimitTransform(n)`; the visitor then answers `false`. -/
def visit_limit_plan (n : Nat) (st : BState) : Except BuildErr BState := do
  let p1 ← st.pipeline.merge_processor
  let p2 ← p1.add_simple_transform (Transform.limitT n)
  Except.ok { st with pipeline := p2 }

/-- `PipelineBuilder::visit_read_data_source_plan` (lines 207-229): bind the
plan's partitions to the context, compute the worker count from
`max_threads` and the partition count, and add that many
`SourceTransform` sources. -/
def visit_read_data_source_plan (maxThreads partitionsLen : Nat) (st : BState) :
    BState :=
  let workers :=
    if maxThreads = 0 then 1
    else if partitionsLen < maxThreads then partitionsLen
    else maxThreads
  { pipeline := addSources Transform.source workers st.pipeline
    events := st.events ++ [Event.bindPartitions partitionsLen] }

/-- The preorder limit scan of `PipelineBuilder::build` (`pipeline_builder.rs`
lines 39-48): `walk_preorder` is modelled from the spec (it is defined
outside the sources) as the standard parent-before-child traversal; the
closure overwrites the hint at every `Limit` node it meets and always
continues. -/
def scanLimit (acc : Option Nat) : PlanNode → Option Nat
  | PlanNode.select i => scanLimit acc i
  | PlanNode.stage _ i => scanLimit acc i
  | PlanNode.projection i => scanLimit acc i
  | PlanNode.aggrPre _ i => scanLimit acc i
  | PlanNode.aggrFinal _ i => scanLimit acc i
  | PlanNode.filter i => scanLimit acc i
  | PlanNode.sort i => scanLimit acc i
  | PlanNode.limit n i => scanLimit (some n) i
  | PlanNode.readSource _ => acc
  | PlanNode.unsupported _ => acc

/-- The deepest (innermost) `Limit` node of a plan, when any. -/
def deepestLimit : PlanNode → Option Nat
  | PlanNode.select i => deepestLimit i
  | PlanNode.stage _ i => deepestLimit i
  | PlanNode.projection i => deepestLimit i
  | PlanNode.aggrPre _ i => deepestLimit i
  | PlanNode.aggrFinal _ i => deepestLimit i
  | PlanNode.filter i => deepestLimit i
  | PlanNode.sort i => deepestLimit i
  | PlanNode.limit n i =>
    match deepestLimit i with
    | some m => some m
    | none => some n
  | PlanNode.readSource _ => none
  | PlanNode.unsupported _ => none

/-- The postorder walk of `PipelineBuilder::build` (`pipeline_builder.rs`
lines 50-71): `walk_postorder` is modelled from the spec as the standard
child-before-parent traversal whose visitor answers whether to keep
walking; a `false` (from `visit_limit_plan`) stops the walk above.  Each
node dispatches to its visitor exactly as the `match` in `build`. -/
def walk_build (hint : Option Nat) (maxThreads : Nat) :
    PlanNode → BState → Except BuildErr (BState × Bool)
  | PlanNode.select i, st => do
    let (st1, c) ← walk_build hint maxThreads i st
    if c then Except.ok (st1, true) else Except.ok (st1, false)
  | PlanNode.stage ex i, st => do
    let (st1, c) ← walk_build hint maxThreads i st
    if c then Except.ok (visit_stage_plan ex st1, true) else Except.ok (st1, false)
  | PlanNode.projection i, st => do
    let (st1, c) ← walk_build hint maxThreads i st
    if c then do
      let st2 ← visit_projection_plan st1
      Except.ok (st2, true)
    else Except.ok (st1, false)
  | PlanNode.aggrPre g i, st => do
    let (st1, c) ← walk_build hint maxThreads i st
    if c then do
      let st2 ← visit_aggregator_pre_plan g st1
      Except.ok (st2, true)
    else Except.ok (st1, false)
  | PlanNode.aggrFinal g i, st => do
    let (st1, c) ← walk_build hint maxThreads i st
    if c then do
      let st2 ← visit_aggregator_final_plan g st1
      Except.ok (st2, true)
    else Except.ok (st1, false)
  | PlanNode.filter i, st => do
    let (st1, c) ← walk_build hint maxThreads i st
    if c then do
      let st2 ← visit_filter_plan st1
      Except.ok (st2, true)
    else Except.ok (st1, false)
  | PlanNode.sort i, st => do
    let (st1, c) ← walk_build hint maxThreads i st
    if c then do
      let st2 ← visit_sort_plan hint st1
      Except.ok (st2, true)
    else Except.ok (st1, false)
  | PlanNode.limit n i, st => do
    let (st1, c) ← walk_build hint maxThreads i st
    if c then do
      let st2 ← visit_limit_plan n st1
      Except.ok (st2, false)
    else Except.ok (st1, false)
  | PlanNode.readSource parts, st =>
    Except.ok (visit_read_data_source_plan maxThreads parts st, true)
  | PlanNode.unsupported name, _ =>
    Except.error (BuildErr.unknownPlan name)

/-- `PipelineBuilder::build` (`pipeline_builder.rs` lines 36-75): run the
preorder limit scan, then the postorder walk from an empty pipeline. -/
def PipelineBuilder.build (maxThreads : Nat) (plan : PlanNode) :
    Except BuildErr BState := do
  let hint := scanLimit none plan
  let (st, _) ← walk_build hint maxThreads plan
    { pipeline := Pipeline.create, events := [] }
  Except.ok st

/-! ## Predicates used by the claim statements -/

/-- No transform of the pipe requires a single input stream. -/
def noSingle (p : List Transform) : Prop :=
  ∀ t ∈ p, t.singleStream = false

/-- The merge discipline of a pipeline: its head pipe holds no
single-stream transform, and any pipe holding one is immediately preceded
by the width-1 merge pipe. -/
def mergeDiscipline (pl : Pipeline) : Prop :=
  (∀ p, pl.pipes.head? = some p → noSingle p) ∧
  List.Chain' (fun a b => (∃ t ∈ b, t.singleStream = true) → a = [Transform.merge])
    pl.pipes

/-- Every sort transform of the pipeline carries the limit hint `hint`. -/
def sortHintsOK (hint : Option Nat) (pl : Pipeline) : Prop :=
  ∀ pipe ∈ pl.pipes, ∀ t ∈ pipe, ∀ l, t.sortLimitOf = some l → l = hint

/-- The keys of a tree are in strictly ascending byte order (the
representation invariant of the underlying sled tree). -/
def treeSorted (l : STree) : Prop :=
  List.Pairwise (fun e f => bsLt e.1 f.1 = true) l

/-- Every entry of the tree round-trips through the key space's codec. -/
def treeWf {K V : Type} (ks : KeySpace K V) (l : STree) : Prop :=
  ∀ e ∈ l, ∃ a x, ks.deserializeKey e.1 = Except.ok a ∧ ks.serializeKey a = e.1 ∧
    ks.deserializeValue e.2 = Except.ok x ∧ ks.serializeValue x = e.2

/-- A concrete key space over `Nat` keys and values with a one-byte,
order-preserving, round-tripping codec; used to instantiate the generic
theorems. -/
def natKS : KeySpace Nat Nat :=
  { name := "nkv"
    serializeKey := fun n => [n]
    deserializeKey := fun bs =>
      match bs with
      | [n] => Except.ok n
      | _ => Except.error (MetaErr.decode "key")
    serializeValue := fun n => [n]
    deserializeValue := fun bs =>
      match bs with
      | [n] => Except.ok n
      | _ => Except.error (MetaErr.decode "value") }

/-! ## Helper lemmas: byte order -/

theorem bsLt_eq_of_not (a : Bytes) : ∀ (b : Bytes),
    bsLt a b = false → bsLt b a = false → a = b := by
  induction a with
  | nil =>
    intro b h1 _
    cases b with
    | nil => rfl
    | cons x xs => simp [bsLt] at h1
  | cons x xs ih =>
    intro b h1 h2
    cases b with
    | nil => simp [bsLt] at h2
    | cons y ys =>
      by_cases hxy : x < y
      · rw [bsLt] at h1; simp [hxy] at h1
      · by_cases hyx : y < x
        · rw [bsLt] at h2; simp [hyx] at h2
        · have hx : x = y := Nat.le_antisymm (Nat.not_lt.mp hyx) (Nat.not_lt.mp hxy)
          subst hx
          rw [bsLt] at h1 h2
          simp [lt_irrefl] at h1 h2
          rw [ih ys h1 h2]

theorem bsLt_trans (a : Bytes) : ∀ (b c : Bytes),
    bsLt a b = true → bsLt b c = true → bsLt a c = true := by
  induction a with
  | nil =>
    intro b c h1 h2
    cases b with
    | nil => simp [bsLt] at h1
    | cons y ys =>
      cases c with
      | nil => simp [bsLt] at h2
      | cons z zs => simp [bsLt]
  | cons x xs ih =>
    intro b c h1 h2
    cases b with
    | nil => simp [bsLt] at h1
    | cons y ys =>
      cases c with
      | nil => simp [bsLt] at h2
      | cons z zs =>
        rw [bsLt] at h1 h2 ⊢
        by_cases hxy : x < y
        · by_cases hyz : y < z
          · simp [show x < z by omega]
          · by_cases hzy : z < y
            · simp [hyz, hzy] at h2
            · have : y = z := by omega
              subst this
              simp [hxy]
        · by_cases hyx : y < x
          · simp [hxy, hyx] at h1
          · have hx : x = y := by omega
            subst hx
            simp [lt_irrefl] at h1
            by_cases hyz : x < z
            · simp [hyz]
            · by_cases hzy : z < x
              · simp [hyz, hzy] at h2
              · have : x = z := by omega
                subst this
                simp [lt_irrefl] at h2 ⊢
                exact ih ys zs h1 h2

theorem bsLt_irrefl (a : Bytes) : bsLt a a = false := by
  induction a with
  | nil => rfl
  | cons x xs ih => rw [bsLt]; simp [lt_irrefl, ih]

/-! ## Helper lemmas: find? and filter -/

theorem lfind_cons_pos {α : Type} (p : α → Bool) (a : α) (l : List α)
    (h : p a = true) : List.find? p (a :: l) = some a := by
  simp [h]

theorem lfind_cons_neg {α : Type} (p : α → Bool) (a : α) (l : List α)
    (h : p a = false) : List.find? p (a :: l) = List.find? p l := by
  simp [h]

theorem find?_filter_eq (l : STree) (c : Bytes) (f : Bytes → Bool) (hf : f c = true) :
    (l.filter (fun kv => f kv.1)).find? (fun kv => kv.1 == c) =
      l.find? (fun kv => kv.1 == c) := by
  induction l with
  | nil => rfl
  | cons kv t ih =>
    by_cases hk : (kv.1 == c) = true
    · have hfk : f kv.1 = true := by
        have hkc : kv.1 = c := eq_of_beq hk
        rw [hkc, hf]
      rw [List.filter_cons, if_pos hfk,
        lfind_cons_pos (fun kv => kv.1 == c) kv (List.filter (fun kv => f kv.1) t) hk,
        lfind_cons_pos (fun kv => kv.1 == c) kv t hk]
    · have hk' : (kv.1 == c) = false := by
        cases hkb : (kv.1 == c) with
        | false => rfl
        | true => exact absurd hkb hk
      cases hfk : f kv.1 with
      | false =>
        rw [List.filter_cons, if_neg (by simp [hfk]),
          lfind_cons_neg (fun kv => kv.1 == c) kv t hk', ih]
      | true =>
        rw [List.filter_cons, if_pos hfk,
          lfind_cons_neg (fun kv => kv.1 == c) kv (List.filter (fun kv => f kv.1) t) hk',
          lfind_cons_neg (fun kv => kv.1 == c) kv t hk', ih]

theorem find?_filter_none (l : STree) (c : Bytes) (f : Bytes → Bool)
    (hf : f c = false) :
    (l.filter (fun kv => f kv.1)).find? (fun kv => kv.1 == c) = none := by
  rw [List.find?_eq_none]
  intro kv hkv hbeq
  rcases List.mem_filter.mp hkv with ⟨_, hfkv⟩
  have : kv.1 = c := eq_of_beq hbeq
  rw [this, hf] at hfkv
  exact Bool.false_ne_true hfkv

theorem find?_none_filter (l : STree) (p : Bytes × Bytes → Bool) (f : Bytes × Bytes → Bool)
    (h : l.find? p = none) : (l.filter f).find? p = none := by
  rw [List.find?_eq_none] at h ⊢
  intro x hx
  exact h x (List.mem_filter.mp hx).1

/-! ## Helper lemmas: treeInsert -/

theorem treeInsert_mem (k v : Bytes) : ∀ (l : STree) (e : Bytes × Bytes),
    e ∈ (treeInsert k v l).1 → e = (k, v) ∨ e ∈ l := by
  intro l
  induction l with
  | nil =>
    intro e he
    simp [treeInsert] at he
    exact Or.inl he
  | cons kv t ih =>
    intro e he
    rw [treeInsert] at he
    by_cases h1 : bsLt k kv.1 = true
    · rw [if_pos h1] at he
      simp at he
      rcases he with he | he | he
      · exact Or.inl he
      · exact Or.inr (by simp [he])
      · exact Or.inr (by simp [he])
    · rw [if_neg h1] at he
      by_cases h2 : k = kv.1
      · rw [if_pos h2] at he
        simp at he
        rcases he with he | he
        · exact Or.inl he
        · exact Or.inr (by simp [he])
      · rw [if_neg h2] at he
        simp at he
        rcases he with he | he
        · exact Or.inr (by simp [he])
        · rcases ih e he with h | h
          · exact Or.inl h
          · exact Or.inr (by simp [h])

theorem treeInsert_ne_nil (k v : Bytes) (l : STree) : (treeInsert k v l).1 ≠ [] := by
  cases l with
  | nil => simp [treeInsert]
  | cons kv t =>
    rw [treeInsert]
    by_cases h1 : bsLt k kv.1 = true
    · rw [if_pos h1]; simp
    · rw [if_neg h1]
      by_cases h2 : k = kv.1
      · rw [if_pos h2]; simp
      · rw [if_neg h2]; simp

theorem treeInsert_find_self (k v : Bytes) : ∀ (l : STree),
    (treeInsert k v l).1.find? (fun kv => kv.1 == k) = some (k, v) := by
  intro l
  induction l with
  | nil => simp [treeInsert, List.find?]
  | cons kv t ih =>
    rw [treeInsert]
    by_cases h1 : bsLt k kv.1 = true
    · rw [if_pos h1]
      exact lfind_cons_pos (fun kv => kv.1 == k) (k, v) (kv :: t) (by simp)
    · rw [if_neg h1]
      by_cases h2 : k = kv.1
      · rw [if_pos h2]
        exact lfind_cons_pos (fun kv => kv.1 == k) (k, v) t (by simp)
      · rw [if_neg h2]
        rw [lfind_cons_neg (fun kv => kv.1 == k) kv (treeInsert k v t).1
          (by simp; exact fun h => h2 h.symm)]
        exact ih

theorem treeInsert_sorted (k v : Bytes) : ∀ (l : STree), treeSorted l →
    treeSorted (treeInsert k v l).1 := by
  intro l
  induction l with
  | nil => intro _; simp [treeInsert, treeSorted]
  | cons kv t ih =>
    intro hs
    unfold treeSorted at hs
    rw [List.pairwise_cons] at hs
    rcases hs with ⟨hhd, htl⟩
    unfold treeSorted
    rw [treeInsert]
    by_cases h1 : bsLt k kv.1 = true
    · rw [if_pos h1]
      rw [List.pairwise_cons]
      constructor
      · intro e he
        rcases List.mem_cons.mp he with he | he
        · simp [he, h1]
        · exact bsLt_trans _ _ _ h1 (hhd e he)
      · rw [List.pairwise_cons]
        exact ⟨hhd, htl⟩
    · rw [if_neg h1]
      by_cases h2 : k = kv.1
      · rw [if_pos h2]
        rw [List.pairwise_cons]
        constructor
        · intro e he
          rw [h2]
          exact hhd e he
        · exact htl
      · rw [if_neg h2]
        rw [List.pairwise_cons]
        constructor
        · intro e he
          rcases treeInsert_mem k v t e he with h | h
          · have hk : bsLt kv.1 k = true := by
              cases hlt : bsLt kv.1 k with
              | true => rfl
              | false =>
                have hne : ¬bsLt k kv.1 = true := h1
                have hkk : bsLt k kv.1 = false := by
                  cases hb : bsLt k kv.1 with
                  | false => rfl
                  | true => exact absurd hb hne
                exact absurd (bsLt_eq_of_not _ _ hkk hlt) h2
            simp [h, hk]
          · exact hhd e h
        · exact ih htl

/-! ## Helper lemmas: sorted lists and getLast? -/

theorem sorted_getLast_max {R : Bytes × Bytes → Bytes × Bytes → Prop} :
    ∀ (l : STree), List.Pairwise R l → ∀ e, l.getLast? = some e →
      ∀ f ∈ l, f = e ∨ R f e := by
  intro l
  induction l with
  | nil => intro _ e he; simp at he
  | cons kv t ih =>
    intro hp e he f hf
    rw [List.pairwise_cons] at hp
    cases t with
    | nil =>
      simp at he hf
      subst he; subst hf
      exact Or.inl rfl
    | cons kv2 t2 =>
      rw [List.getLast?_cons_cons] at he
      rcases List.mem_cons.mp hf with hf1 | hf1
      · right
        have hmem : e ∈ kv2 :: t2 := List.mem_of_getLast?_eq_some he
        rw [hf1]
        exact hp.1 e hmem
      · exact ih hp.2 e he f hf1

/-! ## Helper lemmas: substring search -/

theorem leadRun_self (sub : List Char) : ∀ (r : List Char),
    leadRun sub (sub ++ r) = true := by
  induction sub with
  | nil => intro r; rfl
  | cons a as ih => intro r; simp [leadRun, ih]

theorem leadRun_extend (sub : List Char) : ∀ (s r : List Char),
    leadRun sub s = true → leadRun sub (s ++ r) = true := by
  induction sub with
  | nil => intro s r _; rfl
  | cons a as ih =>
    intro s r h
    cases s with
    | nil => simp [leadRun] at h
    | cons c cs =>
      simp [leadRun] at h ⊢
      exact ⟨h.1, ih cs r h.2⟩

theorem hasSub_nil (s : List Char) : hasSub [] s = true := by
  cases s with
  | nil => rfl
  | cons c cs => simp [hasSub, leadRun]

theorem hasSub_cons_of (sub : List Char) (c : Char) (cs : List Char)
    (h : hasSub sub cs = true) : hasSub sub (c :: cs) = true := by
  simp [hasSub, h]

theorem hasSub_self_append (sub : List Char) : ∀ (post : List Char),
    hasSub sub (sub ++ post) = true := by
  intro post
  cases sub with
  | nil => exact hasSub_nil post
  | cons a as =>
    have hl := leadRun_self (a :: as) post
    rw [List.cons_append] at hl
    simp [hasSub, hl]

theorem hasSub_append_left (sub : List Char) : ∀ (pre s : List Char),
    hasSub sub s = true → hasSub sub (pre ++ s) = true := by
  intro pre
  induction pre with
  | nil => intro s h; simpa using h
  | cons c cs ih =>
    intro s h
    exact hasSub_cons_of _ _ _ (ih s h)

theorem hasSub_append_right (sub : List Char) : ∀ (s r : List Char),
    hasSub sub s = true → hasSub sub (s ++ r) = true := by
  intro s
  induction s with
  | nil =>
    intro r h
    simp [hasSub] at h
    simp [h, hasSub_nil]
  | cons c cs ih =>
    intro r h
    simp only [hasSub, Bool.or_eq_true] at h
    rcases h with h | h
    · simp only [List.cons_append, hasSub, Bool.or_eq_true]
      exact Or.inl (leadRun_extend _ _ _ h)
    · exact hasSub_cons_of _ _ _ (ih r h)

theorem strData_append (a b : String) : (a ++ b).data = a.data ++ b.data := rfl

theorem strHasSub_self (s : String) : strHasSub s s = true := by
  have := hasSub_self_append s.data []
  rwa [List.append_nil] at this

theorem strHasSub_left (sub pre s : String) (h : strHasSub sub s = true) :
    strHasSub sub (pre ++ s) = true := by
  rw [strHasSub, strData_append]
  exact hasSub_append_left _ _ _ h

theorem strHasSub_right (sub s r : String) (h : strHasSub sub s = true) :
    strHasSub sub (s ++ r) = true := by
  rw [strHasSub, strData_append]
  exact hasSub_append_right _ _ _ h

/-! ## Helper lemmas: range bounds under an order-preserving codec -/

theorem bnot_decide_lt {K : Type} [LinearOrder K] (a k : K) :
    (!decide (a < k)) = decide (k ≤ a) := by
  rw [← decide_not]
  exact decide_eq_decide.mpr not_lt

theorem inB_serialized {K V : Type} [LinearOrder K] (ks : KeySpace K V)
    (hmono : ∀ a b : K, bsLt (ks.serializeKey a) (ks.serializeKey b) = decide (a < b))
    (r : KRange K) (k : K) :
    inBRange (serializeRange ks r) (ks.serializeKey k) = inKRange r k := by
  rcases r with ⟨lo, hi⟩
  rw [inBRange, inKRange]
  have hlo : lowerOkB (serializeRange ks (lo, hi)).1 (ks.serializeKey k) = lowerOkK lo k := by
    cases lo with
    | unbounded => rfl
    | included a =>
      rw [serializeRange]
      rw [lowerOkB, lowerOkK, hmono, bnot_decide_lt]
    | excluded a =>
      rw [serializeRange]
      rw [lowerOkB, lowerOkK, hmono]
  have hhi : upperOkB (serializeRange ks (lo, hi)).2 (ks.serializeKey k) = upperOkK hi k := by
    cases hi with
    | unbounded => cases lo <;> rfl
    | included b =>
      cases lo <;>
        (rw [serializeRange]; rw [upperOkB, upperOkK, hmono, bnot_decide_lt])
    | excluded b =>
      cases lo <;> (rw [serializeRange]; rw [upperOkB, upperOkK, hmono])
  rw [hlo, hhi]

/-! ## Helper lemmas: addSources and the builder's visitors -/

theorem addSources_cons (t : Transform) : ∀ (n : Nat) (hd : List Transform)
    (tl : List (List Transform)),
    addSources t n ⟨hd :: tl⟩ = ⟨(hd ++ List.replicate n t) :: tl⟩ := by
  intro n
  induction n with
  | zero => intro hd tl; simp [addSources]
  | succ n ih =>
    intro hd tl
    rw [addSources, Pipeline.add_source]
    simp only []
    rw [ih (hd ++ [t]) tl]
    simp [List.replicate_succ, List.append_assoc]

theorem addSources_nil (t : Transform) : ∀ (n : Nat),
    addSources t n ⟨[]⟩ =
      if n = 0 then (⟨[]⟩ : Pipeline) else ⟨[List.replicate n t]⟩ := by
  intro n
  cases n with
  | zero => simp [addSources]
  | succ n =>
    rw [addSources, Pipeline.add_source]
    simp only []
    rw [addSources_cons t n [t] []]
    simp [List.replicate_succ]

/-! ## Helper lemmas: the preorder limit scan -/

theorem scanLimit_eq : ∀ (p : PlanNode) (acc : Option Nat),
    scanLimit acc p =
      match deepestLimit p with
      | some m => some m
      | none => acc := by
  intro p
  induction p with
  | select i ih => intro acc; rw [scanLimit, deepestLimit]; exact ih acc
  | stage ex i ih => intro acc; rw [scanLimit, deepestLimit]; exact ih acc
  | projection i ih => intro acc; rw [scanLimit, deepestLimit]; exact ih acc
  | aggrPre g i ih => intro acc; rw [scanLimit, deepestLimit]; exact ih acc
  | aggrFinal g i ih => intro acc; rw [scanLimit, deepestLimit]; exact ih acc
  | filter i ih => intro acc; rw [scanLimit, deepestLimit]; exact ih acc
  | sort i ih => intro acc; rw [scanLimit, deepestLimit]; exact ih acc
  | limit n i ih =>
    intro acc
    rw [scanLimit, deepestLimit]
    rw [ih (some n)]
    cases deepestLimit i <;> rfl
  | readSource parts => intro acc; rfl
  | unsupported name => intro acc; rfl

theorem scanLimit_none (p : PlanNode) : scanLimit none p = deepestLimit p := by
  rw [scanLimit_eq p none]
  cases deepestLimit p <;> rfl

/-! ## Helper lemmas: session steps -/

theorem sessionStep_abort (s : MutableStatus) (o : SessionOp)
    (h : o.isKill = false) : (sessionStep s o).abort = s.abort := by
  cases o with
  | setCurrentDatabase db => rfl
  | attach host chan => rfl
  | attachContext ctx =>
    rw [sessionStep, Session.attach_context]
    split <;> rfl
  | forceKillQuery => rfl
  | kill => simp [SessionOp.isKill] at h

theorem sessionStep_db (s : MutableStatus) (o : SessionOp)
    (h : o.isSetDb = false) :
    (sessionStep s o).current_database = s.current_database := by
  cases o with
  | setCurrentDatabase db => simp [SessionOp.isSetDb] at h
  | attach host chan => rfl
  | attachContext ctx =>
    rw [sessionStep, Session.attach_context]
    split <;> rfl
  | forceKillQuery => rfl
  | kill =>
    rw [sessionStep, Session.kill]
    simp only []
    split
    · cases h2 : ({ s with abort := true } : MutableStatus).io_shutdown_tx <;> simp
    · rfl

theorem runOps_abort : ∀ (ops : List SessionOp) (s : MutableStatus),
    ops.all (fun o => !o.isKill) = true → (runOps s ops).abort = s.abort := by
  intro ops
  induction ops with
  | nil => intro s _; rfl
  | cons o t ih =>
    intro s h
    rw [List.all_cons, Bool.and_eq_true] at h
    have ho : o.isKill = false := by
      cases hk : o.isKill with
      | false => rfl
      | true => rw [hk] at h; exact absurd h.1 (by simp)
    rw [runOps, List.foldl_cons]
    have := ih (sessionStep s o) h.2
    rw [runOps] at this
    rw [this, sessionStep_abort s o ho]

theorem runOps_db : ∀ (ops : List SessionOp) (s : MutableStatus),
    ops.all (fun o => !o.isSetDb) = true →
    (runOps s ops).current_database = s.current_database := by
  intro ops
  induction ops with
  | nil => intro s _; rfl
  | cons o t ih =>
    intro s h
    rw [List.all_cons, Bool.and_eq_true] at h
    have ho : o.isSetDb = false := by
      cases hk : o.isSetDb with
      | false => rfl
      | true => rw [hk] at h; exact absurd h.1 (by simp)
    rw [runOps, List.foldl_cons]
    have := ih (sessionStep s o) h.2
    rw [runOps] at this
    rw [this, sessionStep_db s o ho]

/-! ## Helper lemmas: the merge discipline invariant -/

theorem mergeDiscipline_empty : mergeDiscipline ⟨[]⟩ := by
  constructor
  · intro p hp; cases hp
  · exact List.chain'_nil

theorem noSingle_replicate (t : Transform) (h : t.singleStream = false) (n : Nat) :
    noSingle (List.replicate n t) := by
  intro x hx
  rw [List.eq_of_mem_replicate hx, h]

theorem mergeDiscipline_addSources_nil (t : Transform) (h : t.singleStream = false)
    (n : Nat) : mergeDiscipline (addSources t n ⟨[]⟩) := by
  rw [addSources_nil]
  by_cases hn : n = 0
  · rw [if_pos hn]; exact mergeDiscipline_empty
  · rw [if_neg hn]
    constructor
    · intro p hp
      simp at hp
      rw [← hp]
      exact noSingle_replicate t h n
    · exact List.chain'_singleton _

theorem pipes_ne_nil_of_getLast {p : Pipeline} {lp : List Transform}
    (h : p.pipes.getLast? = some lp) : ∃ hd tl, p.pipes = hd :: tl := by
  cases hp : p.pipes with
  | nil => rw [hp] at h; simp at h
  | cons hd tl => exact ⟨hd, tl, rfl⟩

theorem head?_append_cons {α : Type} (hd : α) (tl l2 : List α) :
    ((hd :: tl) ++ l2).head? = some hd := rfl

theorem mergeDiscipline_snoc (p : Pipeline) (np : List Transform)
    (hp : mergeDiscipline p) (hne : p.pipes ≠ [])
    (hnp : (∃ t ∈ np, t.singleStream = true) → p.pipes.getLast? = some [Transform.merge]) :
    mergeDiscipline ⟨p.pipes ++ [np]⟩ := by
  constructor
  · intro q hq
    cases hpp : p.pipes with
    | nil => exact absurd hpp hne
    | cons hd tl =>
      rw [hpp, head?_append_cons] at hq
      have hqh : hd = q := by injection hq
      rw [← hqh]
      exact hp.1 hd (by rw [hpp]; rfl)
  · rw [List.chain'_append]
    refine ⟨hp.2, List.chain'_singleton _, ?_⟩
    intro x hx y hy
    simp at hy
    rw [← hy]
    intro hex
    have := hnp hex
    rw [this] at hx
    simp at hx
    rw [hx]

theorem add_simple_ok (p : Pipeline) (t : Transform) (p' : Pipeline)
    (h : p.add_simple_transform t = Except.ok p') :
    ∃ lp, p.pipes.getLast? = some lp ∧ p' = ⟨p.pipes ++ [lp.map (fun _ => t)]⟩ := by
  rw [Pipeline.add_simple_transform] at h
  cases hl : p.pipes.getLast? with
  | none => rw [hl] at h; cases h
  | some lp =>
    rw [hl] at h
    refine ⟨lp, rfl, ?_⟩
    injection h with h
    exact h.symm

theorem merge_ok (p : Pipeline) (p' : Pipeline)
    (h : p.merge_processor = Except.ok p') :
    (∃ lp, p.pipes.getLast? = some lp) ∧ p' = ⟨p.pipes ++ [[Transform.merge]]⟩ := by
  rw [Pipeline.merge_processor] at h
  cases hl : p.pipes.getLast? with
  | none => rw [hl] at h; cases h
  | some lp =>
    rw [hl] at h
    refine ⟨⟨lp, rfl⟩, ?_⟩
    injection h with h
    exact h.symm

theorem mergeDiscipline_add_simple (p p' : Pipeline) (t : Transform)
    (ht : t.singleStream = false) (hp : mergeDiscipline p)
    (he : p.add_simple_transform t = Except.ok p') : mergeDiscipline p' := by
  rcases add_simple_ok p t p' he with ⟨lp, hl, hp'⟩
  rcases pipes_ne_nil_of_getLast hl with ⟨hd, tl, hpp⟩
  rw [hp']
  apply mergeDiscipline_snoc p _ hp (by rw [hpp]; simp)
  intro hex
  exfalso
  rcases hex with ⟨x, hx, hxs⟩
  rw [List.mem_map] at hx
  rcases hx with ⟨y, _, hyx⟩
  rw [← hyx, ht] at hxs
  exact Bool.false_ne_true hxs

theorem mergeDiscipline_merge (p p' : Pipeline) (hp : mergeDiscipline p)
    (he : p.merge_processor = Except.ok p') : mergeDiscipline p' := by
  rcases merge_ok p p' he with ⟨⟨lp, hl⟩, hp'⟩
  rcases pipes_ne_nil_of_getLast hl with ⟨hd, tl, hpp⟩
  rw [hp']
  apply mergeDiscipline_snoc p _ hp (by rw [hpp]; simp)
  intro hex
  exfalso
  rcases hex with ⟨x, hx, hxs⟩
  simp at hx
  rw [hx] at hxs
  simp [Transform.singleStream] at hxs

theorem mergeDiscipline_merge_add (p pm p' : Pipeline) (t : Transform)
    (hp : mergeDiscipline p) (hm : p.merge_processor = Except.ok pm)
    (ha : pm.add_simple_transform t = Except.ok p') : mergeDiscipline p' := by
  rcases merge_ok p pm hm with ⟨_, hpm⟩
  rcases add_simple_ok pm t p' ha with ⟨lp, hl, hp'⟩
  have hmd : mergeDiscipline pm := mergeDiscipline_merge p pm hp hm
  rw [hp']
  apply mergeDiscipline_snoc pm _ hmd
  · rw [hpm]; simp
  · intro _
    rw [hpm]
    rw [show (⟨p.pipes ++ [[Transform.merge]]⟩ : Pipeline).pipes
      = p.pipes ++ [[Transform.merge]] from rfl]
    exact List.getLast?_concat _

/-! ## Helper lemmas: the sort-hint invariant -/

theorem sortHints_empty (h : Option Nat) : sortHintsOK h ⟨[]⟩ := by
  intro pipe hp; cases hp

theorem sortHints_snoc (h : Option Nat) (p : Pipeline) (np : List Transform)
    (hp : sortHintsOK h p)
    (hnp : ∀ t ∈ np, ∀ l, t.sortLimitOf = some l → l = h) :
    sortHintsOK h ⟨p.pipes ++ [np]⟩ := by
  intro pipe hpipe t ht l hl
  rw [show (⟨p.pipes ++ [np]⟩ : Pipeline).pipes = p.pipes ++ [np] from rfl] at hpipe
  rcases List.mem_append.mp hpipe with hm | hm
  · exact hp pipe hm t ht l hl
  · simp at hm
    rw [hm] at ht
    exact hnp t ht l hl

theorem sortHints_addSources (h : Option Nat) (t : Transform)
    (ht : t.sortLimitOf = none) : ∀ (n : Nat) (p : Pipeline),
    sortHintsOK h p → sortHintsOK h (addSources t n p) := by
  intro n
  induction n with
  | zero => intro p hp; exact hp
  | succ n ih =>
    intro p hp
    rw [addSources]
    apply ih
    rw [Pipeline.add_source]
    cases hpp : p.pipes with
    | nil =>
      intro pipe hpipe t' ht' l hl
      simp at hpipe
      rw [hpipe] at ht'
      simp at ht'
      rw [ht'] at hl
      rw [ht] at hl
      cases hl
    | cons hd tl =>
      intro pipe hpipe t' ht' l hl
      rcases List.mem_cons.mp hpipe with hm | hm
      · rw [hm] at ht'
        rcases List.mem_append.mp ht' with hm2 | hm2
        · exact hp hd (by rw [hpp]; exact List.mem_cons_self _ _) t' hm2 l hl
        · simp at hm2
          rw [hm2] at hl
          rw [ht] at hl
          cases hl
      · exact hp pipe (by rw [hpp]; exact List.mem_cons_of_mem _ hm) t' ht' l hl

theorem sortHints_add_simple (h : Option Nat) (p p' : Pipeline) (t : Transform)
    (ht : ∀ l, t.sortLimitOf = some l → l = h) (hp : sortHintsOK h p)
    (he : p.add_simple_transform t = Except.ok p') : sortHintsOK h p' := by
  rcases add_simple_ok p t p' he with ⟨lp, _, hp'⟩
  rw [hp']
  apply sortHints_snoc h p _ hp
  intro t' ht' l hl
  rw [List.mem_map] at ht'
  rcases ht' with ⟨y, _, hyt⟩
  rw [← hyt] at hl
  exact ht l hl

theorem sortHints_merge (h : Option Nat) (p p' : Pipeline) (hp : sortHintsOK h p)
    (he : p.merge_processor = Except.ok p') : sortHintsOK h p' := by
  rcases merge_ok p p' he with ⟨_, hp'⟩
  rw [hp']
  apply sortHints_snoc h p _ hp
  intro t' ht' l hl
  simp at ht'
  rw [ht'] at hl
  cases hl

/-! ## Helper lemmas: both builder invariants through each visitor -/

/-- The combined invariant the walk maintains. -/
def buildInv (hint : Option Nat) (pl : Pipeline) : Prop :=
  mergeDiscipline pl ∧ sortHintsOK hint pl

theorem buildInv_addSources_nil (hint : Option Nat) (t : Transform)
    (ht1 : t.singleStream = false) (ht2 : t.sortLimitOf = none) (n : Nat) :
    buildInv hint (addSources t n ⟨[]⟩) := by
  constructor
  · exact mergeDiscipline_addSources_nil t ht1 n
  · exact sortHints_addSources hint t ht2 n ⟨[]⟩ (sortHints_empty hint)

theorem inv_stage (hint : Option Nat) (ex : List String) (st : BState)
    (hp : buildInv hint st.pipeline) :
    buildInv hint (visit_stage_plan ex st).pipeline := by
  rw [visit_stage_plan]
  by_cases hex : ex.isEmpty
  · rw [if_pos hex]; exact hp
  · rw [if_neg hex]
    exact buildInv_addSources_nil hint Transform.remote rfl rfl ex.length

theorem inv_simple_step (hint : Option Nat) (st st2 : BState) (t : Transform)
    (ht1 : t.singleStream = false) (ht2 : ∀ l, t.sortLimitOf = some l → l = hint)
    (hp : buildInv hint st.pipeline)
    (h : (do
        let p ← st.pipeline.add_simple_transform t
        Except.ok { st with pipeline := p }) = Except.ok st2) :
    buildInv hint st2.pipeline := by
  cases he : st.pipeline.add_simple_transform t with
  | error err => rw [he] at h; simp [Bind.bind, Except.bind] at h
  | ok p' =>
    rw [he] at h
    simp only [Bind.bind, Except.bind] at h
    injection h with h
    rw [← h]
    exact ⟨mergeDiscipline_add_simple _ _ _ ht1 hp.1 he,
      sortHints_add_simple hint _ _ _ ht2 hp.2 he⟩

theorem inv_merge_add_step (hint : Option Nat) (st st2 : BState) (t : Transform)
    (ht2 : ∀ l, t.sortLimitOf = some l → l = hint)
    (hp : buildInv hint st.pipeline)
    (h : (do
        let p1 ← st.pipeline.merge_processor
        let p2 ← p1.add_simple_transform t
        Except.ok { st with pipeline := p2 }) = Except.ok st2) :
    buildInv hint st2.pipeline := by
  cases hm : st.pipeline.merge_processor with
  | error err => rw [hm] at h; simp [Bind.bind, Except.bind] at h
  | ok p1 =>
    rw [hm] at h
    simp only [Bind.bind, Except.bind] at h
    cases ha : p1.add_simple_transform t with
    | error err => rw [ha] at h; simp [Except.bind] at h
    | ok p2 =>
      rw [ha] at h
      simp only [Except.bind] at h
      injection h with h
      rw [← h]
      exact ⟨mergeDiscipline_merge_add _ _ _ _ hp.1 hm ha,
        sortHints_add_simple hint _ _ _ ht2 (sortHints_merge hint _ _ hp.2 hm) ha⟩

theorem inv_projection (hint : Option Nat) (st st2 : BState)
    (hp : buildInv hint st.pipeline) (h : visit_projection_plan st = Except.ok st2) :
    buildInv hint st2.pipeline := by
  rw [visit_projection_plan] at h
  exact inv_simple_step hint st st2 Transform.projection rfl
    (fun l hl => by cases hl) hp h

theorem inv_filter (hint : Option Nat) (st st2 : BState)
    (hp : buildInv hint st.pipeline) (h : visit_filter_plan st = Except.ok st2) :
    buildInv hint st2.pipeline := by
  rw [visit_filter_plan] at h
  exact inv_simple_step hint st st2 Transform.filterT rfl
    (fun l hl => by cases hl) hp h

theorem inv_aggr_pre (hint : Option Nat) (g : Bool) (st st2 : BState)
    (hp : buildInv hint st.pipeline)
    (h : visit_aggregator_pre_plan g st = Except.ok st2) :
    buildInv hint st2.pipeline := by
  rw [visit_aggregator_pre_plan] at h
  refine inv_simple_step hint st st2 _ ?_ ?_ hp h
  · cases g <;> rfl
  · intro l hl
    cases g <;> simp [Transform.sortLimitOf] at hl

theorem inv_aggr_final (hint : Option Nat) (g : Bool) (st st2 : BState)
    (hp : buildInv hint st.pipeline)
    (h : visit_aggregator_final_plan g st = Except.ok st2) :
    buildInv hint st2.pipeline := by
  rw [visit_aggregator_final_plan] at h
  refine inv_merge_add_step hint st st2 _ ?_ hp h
  intro l hl
  cases g <;> simp [Transform.sortLimitOf] at hl

theorem inv_limit (hint : Option Nat) (n : Nat) (st st2 : BState)
    (hp : buildInv hint st.pipeline) (h : visit_limit_plan n st = Except.ok st2) :
    buildInv hint st2.pipeline := by
  rw [visit_limit_plan] at h
  exact inv_merge_add_step hint st st2 (Transform.limitT n)
    (fun l hl => by cases hl) hp h

theorem inv_sort (hint : Option Nat) (st st2 : BState)
    (hp : buildInv hint st.pipeline) (h : visit_sort_plan hint st = Except.ok st2) :
    buildInv hint st2.pipeline := by
  rw [visit_sort_plan] at h
  cases h1 : st.pipeline.add_simple_transform (Transform.sortPre hint) with
  | error err => rw [h1] at h; simp [Bind.bind, Except.bind] at h
  | ok p1 =>
    rw [h1] at h
    simp only [Bind.bind, Except.bind] at h
    have hp1 : buildInv hint p1 :=
      ⟨mergeDiscipline_add_simple st.pipeline p1 (Transform.sortPre hint) rfl hp.1 h1,
        sortHints_add_simple hint _ _ _
          (fun l hl => by rw [Transform.sortLimitOf] at hl; injection hl with hl; exact hl.symm)
          hp.2 h1⟩
    cases h2 : p1.add_simple_transform (Transform.sortMerge hint) with
    | error err => rw [h2] at h; simp [Except.bind] at h
    | ok p2 =>
      rw [h2] at h
      simp only [Except.bind] at h
      have hp2 : buildInv hint p2 :=
        ⟨mergeDiscipline_add_simple p1 p2 (Transform.sortMerge hint) rfl hp1.1 h2,
          sortHints_add_simple hint _ _ _
            (fun l hl => by rw [Transform.sortLimitOf] at hl; injection hl with hl; exact hl.symm)
            hp1.2 h2⟩
      cases h3 : p2.pipes.getLast? with
      | none => rw [h3] at h; simp only [] at h; cases h
      | some lp =>
        rw [h3] at h
        simp only [] at h
        by_cases h4 : lp.length > 1
        · rw [if_pos h4] at h
          cases h5 : p2.merge_processor with
          | error err => rw [h5] at h; simp [Bind.bind, Except.bind] at h
          | ok p3 =>
            rw [h5] at h
            simp only [Bind.bind, Except.bind] at h
            cases h6 : p3.add_simple_transform (Transform.sortMerge hint) with
            | error err => rw [h6] at h; simp [Except.bind] at h
            | ok p4 =>
              rw [h6] at h
              simp only [Except.bind] at h
              injection h with h
              rw [← h]
              exact ⟨mergeDiscipline_merge_add _ _ _ _ hp2.1 h5 h6,
                sortHints_add_simple hint _ _ _
                  (fun l hl => by
                    rw [Transform.sortLimitOf] at hl; injection hl with hl; exact hl.symm)
                  (sortHints_merge hint _ _ hp2.2 h5) h6⟩
        · rw [if_neg h4] at h
          injection h with h
          rw [← h]
          exact hp2

theorem inv_read (hint : Option Nat) (mt parts : Nat) :
    buildInv hint
      (visit_read_data_source_plan mt parts
        { pipeline := Pipeline.create, events := [] }).pipeline := by
  rw [visit_read_data_source_plan]
  exact buildInv_addSources_nil hint Transform.source rfl rfl _

/-- The walk from the empty pipeline maintains both invariants: the merge
discipline and the sort hints. -/
theorem walk_inv (hint : Option Nat) (mt : Nat) : ∀ (p : PlanNode) (st' : BState)
    (c : Bool),
    walk_build hint mt p { pipeline := Pipeline.create, events := [] } =
      Except.ok (st', c) →
    buildInv hint st'.pipeline := by
  intro p
  induction p with
  | select i ih =>
    intro st' c h
    rw [walk_build] at h
    cases hw : walk_build hint mt i { pipeline := Pipeline.create, events := [] } with
    | error err => rw [hw] at h; simp [Bind.bind, Except.bind] at h
    | ok pr =>
      obtain ⟨st1, c1⟩ := pr
      rw [hw] at h
      simp only [Bind.bind, Except.bind] at h
      cases c1 with
      | false =>
        simp at h
        rw [← h.1]
        exact ih st1 false hw
      | true =>
        simp at h
        rw [← h.1]
        exact ih st1 true hw
  | stage ex i ih =>
    intro st' c h
    rw [walk_build] at h
    cases hw : walk_build hint mt i { pipeline := Pipeline.create, events := [] } with
    | error err => rw [hw] at h; simp [Bind.bind, Except.bind] at h
    | ok pr =>
      obtain ⟨st1, c1⟩ := pr
      rw [hw] at h
      simp only [Bind.bind, Except.bind] at h
      cases c1 with
      | false =>
        simp at h
        rw [← h.1]
        exact ih st1 false hw
      | true =>
        simp at h
        rw [← h.1]
        exact inv_stage hint ex st1 (ih st1 true hw)
  | projection i ih =>
    intro st' c h
    rw [walk_build] at h
    cases hw : walk_build hint mt i { pipeline := Pipeline.create, events := [] } with
    | error err => rw [hw] at h; simp [Bind.bind, Except.bind] at h
    | ok pr =>
      obtain ⟨st1, c1⟩ := pr
      rw [hw] at h
      simp only [Bind.bind, Except.bind] at h
      cases c1 with
      | false =>
        simp at h
        rw [← h.1]
        exact ih st1 false hw
      | true =>
        cases hv : visit_projection_plan st1 with
        | error err => rw [hv] at h; simp [Bind.bind, Except.bind] at h
        | ok st2 =>
          rw [hv] at h
          simp only [Bind.bind, Except.bind] at h
          simp at h
          rw [← h.1]
          exact inv_projection hint st1 st2 (ih st1 true hw) hv
  | aggrPre g i ih =>
    intro st' c h
    rw [walk_build] at h
    cases hw : walk_build hint mt i { pipeline := Pipeline.create, events := [] } with
    | error err => rw [hw] at h; simp [Bind.bind, Except.bind] at h
    | ok pr =>
      obtain ⟨st1, c1⟩ := pr
      rw [hw] at h
      simp only [Bind.bind, Except.bind] at h
      cases c1 with
      | false =>
        simp at h
        rw [← h.1]
        exact ih st1 false hw
      | true =>
        cases hv : visit_aggregator_pre_plan g st1 with
        | error err => rw [hv] at h; simp [Bind.bind, Except.bind] at h
        | ok st2 =>
          rw [hv] at h
          simp only [Bind.bind, Except.bind] at h
          simp at h
          rw [← h.1]
          exact inv_aggr_pre hint g st1 st2 (ih st1 true hw) hv
  | aggrFinal g i ih =>
    intro st' c h
    rw [walk_build] at h
    cases hw : walk_build hint mt i { pipeline := Pipeline.create, events := [] } with
    | error err => rw [hw] at h; simp [Bind.bind, Except.bind] at h
    | ok pr =>
      obtain ⟨st1, c1⟩ := pr
      rw [hw] at h
      simp only [Bind.bind, Except.bind] at h
      cases c1 with
      | false =>
        simp at h
        rw [← h.1]
        exact ih st1 false hw
      | true =>
        cases hv : visit_aggregator_final_plan g st1 with
        | error err => rw [hv] at h; simp [Bind.bind, Except.bind] at h
        | ok st2 =>
          rw [hv] at h
          simp only [Bind.bind, Except.bind] at h
          simp at h
          rw [← h.1]
          exact inv_aggr_final hint g st1 st2 (ih st1 true hw) hv
  | filter i ih =>
    intro st' c h
    rw [walk_build] at h
    cases hw : walk_build hint mt i { pipeline := Pipeline.create, events := [] } with
    | error err => rw [hw] at h; simp [Bind.bind, Except.bind] at h
    | ok pr =>
      obtain ⟨st1, c1⟩ := pr
      rw [hw] at h
      simp only [Bind.bind, Except.bind] at h
      cases c1 with
      | false =>
        simp at h
        rw [← h.1]
        exact ih st1 false hw
      | true =>
        cases hv : visit_filter_plan st1 with
        | error err => rw [hv] at h; simp [Bind.bind, Except.bind] at h
        | ok st2 =>
          rw [hv] at h
          simp only [Bind.bind, Except.bind] at h
          simp at h
          rw [← h.1]
          exact inv_filter hint st1 st2 (ih st1 true hw) hv
  | sort i ih =>
    intro st' c h
    rw [walk_build] at h
    cases hw : walk_build hint mt i { pipeline := Pipeline.create, events := [] } with
    | error err => rw [hw] at h; simp [Bind.bind, Except.bind] at h
    | ok pr =>
      obtain ⟨st1, c1⟩ := pr
      rw [hw] at h
      simp only [Bind.bind, Except.bind] at h
      cases c1 with
      | false =>
        simp at h
        rw [← h.1]
        exact ih st1 false hw
      | true =>
        cases hv : visit_sort_plan hint st1 with
        | error err => rw [hv] at h; simp [Bind.bind, Except.bind] at h
        | ok st2 =>
          rw [hv] at h
          simp only [Bind.bind, Except.bind] at h
          simp at h
          rw [← h.1]
          exact inv_sort hint st1 st2 (ih st1 true hw) hv
  | limit n i ih =>
    intro st' c h
    rw [walk_build] at h
    cases hw : walk_build hint mt i { pipeline := Pipeline.create, events := [] } with
    | error err => rw [hw] at h; simp [Bind.bind, Except.bind] at h
    | ok pr =>
      obtain ⟨st1, c1⟩ := pr
      rw [hw] at h
      simp only [Bind.bind, Except.bind] at h
      cases c1 with
      | false =>
        simp at h
        rw [← h.1]
        exact ih st1 false hw
      | true =>
        cases hv : visit_limit_plan n st1 with
        | error err => rw [hv] at h; simp [Bind.bind, Except.bind] at h
        | ok st2 =>
          rw [hv] at h
          simp only [Bind.bind, Except.bind] at h
          simp at h
          rw [← h.1]
          exact inv_limit hint n st1 st2 (ih st1 true hw) hv
  | readSource parts =>
    intro st' c h
    rw [walk_build] at h
    simp at h
    rw [← h.1]
    exact inv_read hint mt parts
  | unsupported name =>
    intro st' c h
    rw [walk_build] at h
    cases h

/-! ## Claim theorems -/

/-- Claim C9: `Session::kill` always sets the session's abort flag (so
`is_aborting` answers true afterwards), and it sends a oneshot through the
IO shutdown channel and blocks on the reply exactly when no query context
is attached (`context_shared` is `None`) and a shutdown sender is present.
The send-and-block is the boolean component of the model's `kill`
(the send of `session.rs` line 92 is assumed to succeed, its failure being
external to the session). -/
theorem C9_kill_behavior (s : MutableStatus) :
    (Session.kill s).1.abort = true ∧
    Session.is_aborting (Session.kill s).1 = true ∧
    (Session.kill s).2 = (s.context_shared.isNone && s.io_shutdown_tx.isSome) := by
  cases hc : s.context_shared <;> cases hi : s.io_shutdown_tx <;>
    simp [Session.kill, Session.is_aborting, hc, hi]

/-- Claim C10: every session starts in the fixed initial state — not
aborting, current database `"default"`, no client host, no shutdown
channel, no shared context — and it stays non-aborting until `kill` is
called and keeps database `"default"` until `set_current_database` is
called, whatever other operations run. -/
theorem C10_initial_state (ops : List SessionOp) :
    Session.is_aborting Session.try_create = false ∧
    Session.get_current_database Session.try_create = "default" ∧
    Session.try_create.client_host = none ∧
    Session.try_create.io_shutdown_tx = none ∧
    Session.try_create.context_shared = none ∧
    (ops.all (fun o => !o.isKill) = true →
      Session.is_aborting (runOps Session.try_create ops) = false) ∧
    (ops.all (fun o => !o.isSetDb) = true →
      Session.get_current_database (runOps Session.try_create ops) = "default") := by
  refine ⟨rfl, rfl, rfl, rfl, rfl, ?_, ?_⟩
  · intro h
    rw [Session.is_aborting, runOps_abort ops Session.try_create h]
    rfl
  · intro h
    rw [Session.get_current_database, runOps_db ops Session.try_create h]
    rfl

/-- Witness for C10 at a concrete run of attach, force-kill-query and
context attachment (no `kill`, no `set_current_database`). -/
theorem C10_witness :
    Session.is_aborting (runOps Session.try_create
      [SessionOp.attach none 1, SessionOp.forceKillQuery,
        SessionOp.attachContext 2]) = false ∧
    Session.get_current_database (runOps Session.try_create
      [SessionOp.attach none 1, SessionOp.forceKillQuery,
        SessionOp.attachContext 2]) = "default" :=
  ⟨(C10_initial_state
      [SessionOp.attach none 1, SessionOp.forceKillQuery,
        SessionOp.attachContext 2]).2.2.2.2.2.1 (by decide),
    (C10_initial_state
      [SessionOp.attach none 1, SessionOp.forceKillQuery,
        SessionOp.attachContext 2]).2.2.2.2.2.2 (by decide)⟩

/-- Claim C4: when the stage's reschedule answer is non-empty,
`visit_stage_plan` resets the pipeline, then resets the context, then adds
exactly one `RemoteTransform` source per `(executor, sub-plan)` pair — the
pipeline afterwards is exactly one source pipe with one remote per pair;
when the answer is empty the state is untouched. -/
theorem C4_stage_behavior (ex : List String) (st : BState) :
    visit_stage_plan ex st =
      if ex.isEmpty then st
      else
        { pipeline := ⟨[List.replicate ex.length Transform.remote]⟩
          events := st.events ++ [Event.pipelineReset, Event.ctxReset]
            ++ ex.map (fun _ => Event.addRemoteSource) } := by
  rw [visit_stage_plan]
  by_cases hex : ex.isEmpty
  · rw [if_pos hex, if_pos hex]
  · rw [if_neg hex, if_neg hex]
    have hlen : ex.length ≠ 0 := by
      cases ex with
      | nil => exact absurd rfl hex
      | cons a l => simp
    have : addSources Transform.remote ex.length st.pipeline.reset =
        ⟨[List.replicate ex.length Transform.remote]⟩ := by
      rw [Pipeline.reset, addSources_nil, if_neg hlen]
    rw [this]

/-- Claim C5: `visit_read_data_source_plan` binds the plan's partitions to
the context and adds exactly `workers` `SourceTransform` sources to the
head pipe, where `workers` is `max_threads` clamped as the spec states
it: 0 means 1, and more threads than partitions are capped at the
partition count. -/
theorem C5_read_source_workers (mt parts : Nat) (st : BState) :
    (visit_read_data_source_plan mt parts st).events
      = st.events ++ [Event.bindPartitions parts] ∧
    ((visit_read_data_source_plan mt parts st).pipeline.pipes.head?).getD []
      = (st.pipeline.pipes.head?.getD [])
        ++ List.replicate (if mt = 0 then 1 else min mt parts) Transform.source ∧
    (visit_read_data_source_plan mt parts st).pipeline.pipes.tail
      = st.pipeline.pipes.tail := by
  have hn : (if mt = 0 then 1 else if parts < mt then parts else mt)
      = (if mt = 0 then 1 else min mt parts) := by
    split_ifs <;> omega
  have hpipe : (visit_read_data_source_plan mt parts st).pipeline
      = addSources Transform.source (if mt = 0 then 1 else min mt parts)
          st.pipeline := by
    show addSources Transform.source
        (if mt = 0 then 1 else if parts < mt then parts else mt) st.pipeline = _
    rw [hn]
  refine ⟨rfl, ?_, ?_⟩
  · rw [hpipe]
    obtain ⟨pipes⟩ := st.pipeline
    cases pipes with
    | nil =>
      rw [addSources_nil]
      by_cases hz : (if mt = 0 then 1 else min mt parts) = 0
      · rw [if_pos hz, hz]; rfl
      · rw [if_neg hz]; rfl
    | cons hd tl =>
      rw [addSources_cons]
      rfl
  · rw [hpipe]
    obtain ⟨pipes⟩ := st.pipeline
    cases pipes with
    | nil =>
      rw [addSources_nil]
      by_cases hz : (if mt = 0 then 1 else min mt parts) = 0
      · rw [if_pos hz]
      · rw [if_neg hz]; rfl
    | cons hd tl =>
      rw [addSources_cons]
      rfl

/-- Claim C3 counterexample: the error context of `remove`
(`sled_tree.rs` line 142) is `"removed: <key>"` — it contains neither the
tree name (here `"t1"`) nor the key space name (here `"nkv"`); the
key space name is also absent from `get`'s context.  So not every
operation's `MetaStoreDamaged` context carries the tree name, the key
space name and the key. -/
theorem C3_counterexample :
    strHasSub "t1" (removed_context "k5") = false ∧
    strHasSub "nkv" (removed_context "k5") = false ∧
    strHasSub "nkv" (get_context "t1" "k5") = false := by
  refine ⟨?_, ?_, ?_⟩ <;> rfl

/-- Claim C3 (amended): only the range operations attach a
`MetaStoreDamaged` context containing the tree name, the key space name
and the rendered range (through `range_message`); `get` and
`contains_key` attach the tree name and the key but not the key space
name; `remove` and `insert` attach only the key; `last` and the batch
messages are fixed strings. -/
theorem C3_amended_contexts (treeName ksName keyStr startStr endStr : String) :
    strHasSub treeName (range_message treeName ksName startStr endStr) = true ∧
    strHasSub ksName (range_message treeName ksName startStr endStr) = true ∧
    strHasSub startStr (range_message treeName ksName startStr endStr) = true ∧
    strHasSub endStr (range_message treeName ksName startStr endStr) = true ∧
    strHasSub treeName (range_delete_context treeName ksName startStr endStr) = true ∧
    strHasSub ksName (range_delete_context treeName ksName startStr endStr) = true ∧
    strHasSub treeName (get_context treeName keyStr) = true ∧
    strHasSub keyStr (get_context treeName keyStr) = true ∧
    strHasSub treeName (contains_key_context treeName keyStr) = true ∧
    strHasSub keyStr (contains_key_context treeName keyStr) = true ∧
    strHasSub keyStr (removed_context keyStr) = true ∧
    strHasSub keyStr (insert_context keyStr) = true ∧
    last_context = "last" ∧
    append_context = "batch append" ∧
    strHasSub "ks9" (get_context "t9" "k9") = false ∧
    strHasSub "t9" (removed_context "k9") = false := by
  rw [range_message, range_delete_context, range_message, get_context,
    contains_key_context, removed_context, insert_context]
  refine ⟨?_, ?_, ?_, ?_, ?_, ?_, ?_, ?_, ?_, ?_, ?_, ?_, rfl, rfl, ?_, ?_⟩
  · apply strHasSub_right
    apply strHasSub_right
    apply strHasSub_right
    apply strHasSub_right
    apply strHasSub_right
    apply strHasSub_right
    apply strHasSub_right
    exact strHasSub_self _
  · apply strHasSub_right
    apply strHasSub_right
    apply strHasSub_right
    apply strHasSub_right
    apply strHasSub_right
    apply strHasSub_left
    exact strHasSub_self _
  · apply strHasSub_right
    apply strHasSub_right
    apply strHasSub_right
    apply strHasSub_left
    exact strHasSub_self _
  · apply strHasSub_right
    apply strHasSub_left
    exact strHasSub_self _
  · apply strHasSub_left
    apply strHasSub_right
    apply strHasSub_right
    apply strHasSub_right
    apply strHasSub_right
    apply strHasSub_right
    apply strHasSub_right
    apply strHasSub_right
    exact strHasSub_self _
  · apply strHasSub_left
    apply strHasSub_right
    apply strHasSub_right
    apply strHasSub_right
    apply strHasSub_right
    apply strHasSub_right
    apply strHasSub_left
    exact strHasSub_self _
  · apply strHasSub_right
    apply strHasSub_right
    apply strHasSub_left
    exact strHasSub_self _
  · apply strHasSub_left
    exact strHasSub_self _
  · apply strHasSub_right
    apply strHasSub_right
    apply strHasSub_left
    exact strHasSub_self _
  · apply strHasSub_left
    exact strHasSub_self _
  · apply strHasSub_left
    exact strHasSub_self _
  · apply strHasSub_left
    exact strHasSub_self _
  · rfl
  · rfl

/-- Claim C2 counterexample: `SledTree::insert` takes no flush argument and
fsyncs whenever `sync == true` (`sled_tree.rs` lines 336-346).  Under the
claim, which exempts only `append` and `append_values` from the
"fsync iff flush-requested AND sync" rule, an `insert` with no flush
request set must not fsync; the code fsyncs. -/
theorem C2_counterexample :
    (SledTree.insert natKS { name := "t1", sync := true, tree := [] } 1 2).fsynced
      = true := rfl

/-- Claim C2 (amended): `remove` and `range_delete` fsync iff their flush
argument is set and `sync` is true; `append`, `append_values` and also
`insert` (which exposes no flush argument, and skips the flush when the
previous value fails to deserialize) fsync unconditionally whenever
`sync == true`; consequently with `sync = false` no operation fsyncs. -/
theorem C2_amended_flush_discipline {K V : Type} (ks : KeySpace K V) (toKey : V → K)
    (t : SledTree) (k : K) (v : V) (flush : Bool) (r : KRange K)
    (kvs : List (K × V)) (vs : List V) :
    (SledTree.remove ks t k flush).fsynced = (flush && t.sync) ∧
    (SledTree.range_delete ks t r flush).fsynced = (flush && t.sync) ∧
    (SledTree.append ks t kvs).fsynced = t.sync ∧
    (SledTree.append_values ks toKey t vs).fsynced = t.sync ∧
    (isOkE (SledTree.insert ks t k v).res = true →
      (SledTree.insert ks t k v).fsynced = t.sync) ∧
    (t.sync = false →
      (SledTree.insert ks t k v).fsynced = false ∧
      (SledTree.remove ks t k flush).fsynced = false ∧
      (SledTree.range_delete ks t r flush).fsynced = false ∧
      (SledTree.append ks t kvs).fsynced = false ∧
      (SledTree.append_values ks toKey t vs).fsynced = false) := by
  have hrem : (SledTree.remove ks t k flush).fsynced = (flush && t.sync) := by
    rw [SledTree.remove]
    cases treeFindEntry (ks.serializeKey k) t.tree with
    | none => rfl
    | some kv =>
      simp only []
      cases ks.deserializeValue kv.2 <;> rfl
  have hins : ((SledTree.insert ks t k v).fsynced = t.sync ∧
        isOkE (SledTree.insert ks t k v).res = true) ∨
      ((SledTree.insert ks t k v).fsynced = false ∧
        isOkE (SledTree.insert ks t k v).res = false) := by
    rw [SledTree.insert]
    cases (treeInsert (ks.serializeKey k) (ks.serializeValue v) t.tree).2 with
    | none => exact Or.inl ⟨rfl, rfl⟩
    | some prev =>
      simp only []
      cases ks.deserializeValue prev with
      | error e => exact Or.inr ⟨rfl, rfl⟩
      | ok x => exact Or.inl ⟨rfl, rfl⟩
  refine ⟨hrem, rfl, rfl, rfl, ?_, ?_⟩
  · intro hok
    rcases hins with ⟨hf, _⟩ | ⟨hf, hno⟩
    · exact hf
    · rw [hok] at hno
      exact absurd hno (by simp)
  · intro hs
    refine ⟨?_, ?_, ?_, ?_, ?_⟩
    · rcases hins with ⟨hf, _⟩ | ⟨hf, _⟩
      · rw [hf, hs]
      · exact hf
    · rw [hrem, hs, Bool.and_false]
    · show (flush && t.sync) = false
      rw [hs, Bool.and_false]
    · show t.sync = false
      exact hs
    · show t.sync = false
      exact hs

/-- Witness for the amended C2 at a concrete `sync = false` tree: none of
the five mutations fsyncs. -/
theorem C2_amended_witness :
    (SledTree.insert natKS { name := "t0", sync := false, tree := [] } 1 2).fsynced
      = false ∧
    (SledTree.remove natKS { name := "t0", sync := false, tree := [] } 1 true).fsynced
      = false ∧
    (SledTree.range_delete natKS { name := "t0", sync := false, tree := [] }
      (SBound.unbounded, SBound.unbounded) true).fsynced = false ∧
    (SledTree.append natKS { name := "t0", sync := false, tree := [] }
      [(1, 2)]).fsynced = false ∧
    (SledTree.append_values natKS id { name := "t0", sync := false, tree := [] }
      [3]).fsynced = false :=
  (C2_amended_flush_discipline natKS id { name := "t0", sync := false, tree := [] }
    1 2 true (SBound.unbounded, SBound.unbounded) [(1, 2)] [3]).2.2.2.2.2 rfl

/-- Claim C1 counterexample: on the plan
`Limit 5 (Limit 3 (Sort (ReadSource 1)))` the preorder scan of `build`
records `Some 3` — the innermost Limit, not the outermost `5` — because
the closure of `pipeline_builder.rs` lines 40-48 overwrites the hint at
every Limit it meets and preorder visits the outermost first; the sort
transforms of the built pipeline are accordingly constructed with
`limit = Some 3`, although the Sort's ancestor Limits are 5 and 3 with
5 outermost. -/
theorem C1_counterexample :
    scanLimit none
      (PlanNode.limit 5 (PlanNode.limit 3 (PlanNode.sort (PlanNode.readSource 1))))
      = some 3 ∧
    (some 3 : Option Nat) ≠ some 5 ∧
    PipelineBuilder.build 2
      (PlanNode.limit 5 (PlanNode.limit 3 (PlanNode.sort (PlanNode.readSource 1))))
      = Except.ok
        { pipeline := ⟨[[Transform.source],
            [Transform.sortPre (some 3)], [Transform.sortMerge (some 3)],
            [Transform.merge], [Transform.limitT 3]]⟩
          events := [Event.bindPartitions 1] } := by
  refine ⟨rfl, by decide, rfl⟩

/-- Claim C1 (amended): the preorder scan records the n of the deepest
(innermost) Limit node as the limit hint — when several Limits exist the
innermost wins, because the scan overwrites the hint at every Limit it
meets in preorder — and in every successfully built pipeline every
`SortPartialTransform` and `SortMergeTransform` is constructed with
`limit` equal to that recorded hint, regardless of where the Sort sits
relative to the Limits. -/
theorem C1_amended_limit_hint (mt : Nat) (plan : PlanNode) (st : BState)
    (h : PipelineBuilder.build mt plan = Except.ok st) :
    scanLimit none plan = deepestLimit plan ∧
    sortHintsOK (scanLimit none plan) st.pipeline := by
  refine ⟨scanLimit_none plan, ?_⟩
  rw [PipelineBuilder.build] at h
  cases hw : walk_build (scanLimit none plan) mt plan
      { pipeline := Pipeline.create, events := [] } with
  | error e => rw [hw] at h; simp [Bind.bind, Except.bind] at h
  | ok pr =>
    obtain ⟨st1, c⟩ := pr
    rw [hw] at h
    simp only [Bind.bind, Except.bind] at h
    injection h with h
    rw [← h]
    exact (walk_inv (scanLimit none plan) mt plan st1 c hw).2

/-- Witness for the amended C1 at `Limit 4 (Sort (ReadSource 2))` with
three threads. -/
theorem C1_amended_witness :
    scanLimit none (PlanNode.limit 4 (PlanNode.sort (PlanNode.readSource 2)))
      = deepestLimit (PlanNode.limit 4 (PlanNode.sort (PlanNode.readSource 2))) ∧
    sortHintsOK
      (scanLimit none (PlanNode.limit 4 (PlanNode.sort (PlanNode.readSource 2))))
      (⟨⟨[[Transform.source, Transform.source],
          [Transform.sortPre (some 4), Transform.sortPre (some 4)],
          [Transform.sortMerge (some 4), Transform.sortMerge (some 4)],
          [Transform.merge], [Transform.sortMerge (some 4)],
          [Transform.merge], [Transform.limitT 4]]⟩,
        [Event.bindPartitions 2]⟩ : BState).pipeline :=
  C1_amended_limit_hint 3 (PlanNode.limit 4 (PlanNode.sort (PlanNode.readSource 2)))
    ⟨⟨[[Transform.source, Transform.source],
        [Transform.sortPre (some 4), Transform.sortPre (some 4)],
        [Transform.sortMerge (some 4), Transform.sortMerge (some 4)],
        [Transform.merge], [Transform.sortMerge (some 4)],
        [Transform.merge], [Transform.limitT 4]]⟩,
      [Event.bindPartitions 2]⟩ rfl

/-- Convert the merge discipline into its indexed reading: a pipe holding a
single-stream transform sits at a positive index and the pipe right below
it is exactly the width-1 merge pipe. -/
theorem mergeDiscipline_get (pl : Pipeline) (hmd : mergeDiscipline pl) :
    ∀ (i : Nat) (hi : i < pl.pipes.length),
      (∃ t ∈ pl.pipes.get ⟨i, hi⟩, t.singleStream = true) →
      0 < i ∧ pl.pipes.get ⟨i - 1, by omega⟩ = [Transform.merge] := by
  obtain ⟨pipes⟩ := pl
  intro i hi hex
  cases i with
  | zero =>
    exfalso
    cases pipes with
    | nil => simp at hi
    | cons hd tl =>
      rcases hex with ⟨t, ht, hts⟩
      have hns := hmd.1 hd rfl
      have : t ∈ hd := ht
      rw [hns t this] at hts
      exact Bool.false_ne_true hts
  | succ j =>
    have hcg := (List.chain'_iff_get.mp hmd.2) j (by simp at hi ⊢; omega)
    exact ⟨Nat.succ_pos j, hcg hex⟩

/-- Claim C6: in every pipeline the builder returns, a merge pipe of width
1 sits immediately before any pipe holding the transform of an
`AggregatorFinal` (`AggregatorFinalTransform` / `GroupByFinalTransform`)
or `Limit` (`LimitTransform`) node, so the pipe feeding those transforms
always has width 1. -/
theorem C6_merge_before_single_stream (mt : Nat) (plan : PlanNode) (st : BState)
    (h : PipelineBuilder.build mt plan = Except.ok st) :
    ∀ (i : Nat) (hi : i < st.pipeline.pipes.length),
      (∃ t ∈ st.pipeline.pipes.get ⟨i, hi⟩, t.singleStream = true) →
      0 < i ∧ st.pipeline.pipes.get ⟨i - 1, by omega⟩ = [Transform.merge] := by
  have hmd : mergeDiscipline st.pipeline := by
    rw [PipelineBuilder.build] at h
    cases hw : walk_build (scanLimit none plan) mt plan
        { pipeline := Pipeline.create, events := [] } with
    | error e => rw [hw] at h; simp [Bind.bind, Except.bind] at h
    | ok pr =>
      obtain ⟨st1, c⟩ := pr
      rw [hw] at h
      simp only [Bind.bind, Except.bind] at h
      injection h with h
      rw [← h]
      exact (walk_inv (scanLimit none plan) mt plan st1 c hw).1
  exact mergeDiscipline_get st.pipeline hmd

/-- Witness for C6 at `AggregatorFinal (AggregatorPartial (ReadSource 2))`
with two threads: the final-aggregator pipe (index 3) is preceded by the
merge pipe. -/
theorem C6_witness :
    0 < 3 ∧
    (⟨⟨[[Transform.source, Transform.source],
        [Transform.aggrPre, Transform.aggrPre],
        [Transform.merge], [Transform.aggrFinal]]⟩,
      [Event.bindPartitions 2]⟩ : BState).pipeline.pipes.get ⟨3 - 1, by decide⟩
      = [Transform.merge] :=
  C6_merge_before_single_stream 2
    (PlanNode.aggrFinal true (PlanNode.aggrPre true (PlanNode.readSource 2)))
    ⟨⟨[[Transform.source, Transform.source],
        [Transform.aggrPre, Transform.aggrPre],
        [Transform.merge], [Transform.aggrFinal]]⟩,
      [Event.bindPartitions 2]⟩ rfl 3 (by decide) (by decide)

/-! ## Helper lemmas: removing a batch of keys -/

theorem removeBatch_find_none (keys : List Bytes) (l : STree) (c : Bytes)
    (hc : keys.contains c = true) :
    treeFindEntry c (applyRemoveBatch keys l) = none :=
  find?_filter_none l c (fun b => !(keys.contains b))
    (by show (!(keys.contains c)) = false; rw [hc]; rfl)

theorem removeBatch_find_of_none (keys : List Bytes) (l : STree) (c : Bytes)
    (h : treeFindEntry c l = none) :
    treeFindEntry c (applyRemoveBatch keys l) = none :=
  find?_none_filter l (fun kv => kv.1 == c) (fun kv => !(keys.contains kv.1)) h

theorem removeBatch_find_eq (keys : List Bytes) (l : STree) (c : Bytes)
    (hc : keys.contains c = false) :
    treeFindEntry c (applyRemoveBatch keys l) = treeFindEntry c l :=
  find?_filter_eq l c (fun b => !(keys.contains b))
    (by show (!(keys.contains c)) = true; rw [hc]; rfl)

theorem contains_true_of_mem (keys : List Bytes) (c : Bytes) (h : c ∈ keys) :
    keys.contains c = true :=
  List.elem_iff.mpr h

theorem mem_of_contains_true (keys : List Bytes) (c : Bytes)
    (h : keys.contains c = true) : c ∈ keys :=
  List.elem_iff.mp h

/-- Claim C7: after a successful `range_delete(r)`, every key of the key
space lying in `r` is gone (`contains_key` answers false) and every key
outside `r` is untouched (`get` and `contains_key` answer as before),
provided the key codec is order preserving. -/
theorem C7_range_delete {K V : Type} [LinearOrder K] (ks : KeySpace K V)
    (hmono : ∀ a b : K, bsLt (ks.serializeKey a) (ks.serializeKey b) = decide (a < b))
    (t : SledTree) (r : KRange K) (flush : Bool) (k : K) :
    (inKRange r k = true →
      SledTree.contains_key ks (SledTree.range_delete ks t r flush).state k
        = false) ∧
    (inKRange r k = false →
      SledTree.get ks (SledTree.range_delete ks t r flush).state k
        = SledTree.get ks t k ∧
      SledTree.contains_key ks (SledTree.range_delete ks t r flush).state k
        = SledTree.contains_key ks t k) := by
  have hin : inBRange (serializeRange ks r) (ks.serializeKey k) = inKRange r k :=
    inB_serialized ks hmono r k
  have hstate : (SledTree.range_delete ks t r flush).state.tree =
      applyRemoveBatch
        ((treeRangeEntries (serializeRange ks r) t.tree).map Prod.fst) t.tree := rfl
  constructor
  · intro hk
    rw [SledTree.contains_key, hstate]
    cases hfe : treeFindEntry (ks.serializeKey k) t.tree with
    | none =>
      rw [removeBatch_find_of_none _ _ _ hfe]
      rfl
    | some kv =>
      have hfe2 : List.find? (fun kv => kv.1 == ks.serializeKey k) t.tree
          = some kv := hfe
      have hp := List.find?_some hfe2
      have hkv1 : kv.1 = ks.serializeKey k := eq_of_beq hp
      have hkvm : kv ∈ t.tree := List.mem_of_find?_eq_some hfe2
      have hmem : ks.serializeKey k ∈
          (treeRangeEntries (serializeRange ks r) t.tree).map Prod.fst := by
        refine List.mem_map.mpr ⟨kv, ?_, hkv1⟩
        refine List.mem_filter.mpr ⟨hkvm, ?_⟩
        rw [hkv1, hin, hk]
      rw [removeBatch_find_none _ _ _ (contains_true_of_mem _ _ hmem)]
      rfl
  · intro hk
    have hnk : ((treeRangeEntries (serializeRange ks r) t.tree).map
        Prod.fst).contains (ks.serializeKey k) = false := by
      cases hc : ((treeRangeEntries (serializeRange ks r) t.tree).map
          Prod.fst).contains (ks.serializeKey k) with
      | false => rfl
      | true =>
        exfalso
        rcases List.mem_map.mp (mem_of_contains_true _ _ hc) with ⟨kv, hkvf, hkv1⟩
        rcases List.mem_filter.mp hkvf with ⟨_, hinb⟩
        rw [hkv1, hin, hk] at hinb
        exact Bool.false_ne_true hinb
    have hfind : treeFindEntry (ks.serializeKey k)
          (SledTree.range_delete ks t r flush).state.tree
        = treeFindEntry (ks.serializeKey k) t.tree := by
      rw [hstate]
      exact removeBatch_find_eq _ _ _ hnk
    constructor
    · rw [SledTree.get, SledTree.get, hfind]
    · rw [SledTree.contains_key, SledTree.contains_key, hfind]

/-- The codec of `natKS` is order preserving. -/
theorem natKS_mono (a b : Nat) :
    bsLt (natKS.serializeKey a) (natKS.serializeKey b) = decide (a < b) := by
  by_cases h : a < b
  · simp [natKS, bsLt, h]
  · by_cases h2 : b < a <;> simp [natKS, bsLt, h, h2]

/-- Witness for C7 on a concrete three-entry tree and the range `[2, 3]`:
key 2 is deleted, key 1 keeps its value. -/
theorem C7_witness :
    SledTree.contains_key natKS
      (SledTree.range_delete natKS
        { name := "t7", sync := true, tree := [([1], [10]), ([2], [20]), ([3], [30])] }
        (SBound.included 2, SBound.included 3) true).state 2 = false ∧
    (SledTree.get natKS
      (SledTree.range_delete natKS
        { name := "t7", sync := true, tree := [([1], [10]), ([2], [20]), ([3], [30])] }
        (SBound.included 2, SBound.included 3) true).state 1
      = SledTree.get natKS
        { name := "t7", sync := true, tree := [([1], [10]), ([2], [20]), ([3], [30])] } 1 ∧
    SledTree.contains_key natKS
      (SledTree.range_delete natKS
        { name := "t7", sync := true, tree := [([1], [10]), ([2], [20]), ([3], [30])] }
        (SBound.included 2, SBound.included 3) true).state 1
      = SledTree.contains_key natKS
        { name := "t7", sync := true, tree := [([1], [10]), ([2], [20]), ([3], [30])] } 1) :=
  ⟨(C7_range_delete natKS natKS_mono
      { name := "t7", sync := true, tree := [([1], [10]), ([2], [20]), ([3], [30])] }
      (SBound.included 2, SBound.included 3) true 2).1 (by decide),
    (C7_range_delete natKS natKS_mono
      { name := "t7", sync := true, tree := [([1], [10]), ([2], [20]), ([3], [30])] }
      (SBound.included 2, SBound.included 3) true 1).2 (by decide)⟩

/-! ## Helper lemmas for C8 -/

theorem rangeEntries_full : ∀ (l : STree),
    treeRangeEntries (SBound.unbounded, SBound.unbounded) l = l := by
  intro l
  induction l with
  | nil => rfl
  | cons kv t ih =>
    rw [treeRangeEntries, List.filter_cons]
    rw [treeRangeEntries] at ih
    rw [ih]
    rfl

/-- Claim C8: with a round-tripping codec, after `insert(k, v)` on a
well-formed sorted tree, `get(k)` returns `Some v`, `contains_key(k)` is
true, and `last()` returns the pair whose serialized key is the greatest
byte string stored in the tree. -/
theorem C8_insert_get_last {K V : Type} (ks : KeySpace K V)
    (hdk : ∀ a : K, ks.deserializeKey (ks.serializeKey a) = Except.ok a)
    (hdv : ∀ x : V, ks.deserializeValue (ks.serializeValue x) = Except.ok x)
    (t : SledTree) (hs : treeSorted t.tree) (hwf : treeWf ks t.tree) (k : K) (v : V) :
    SledTree.get ks (SledTree.insert ks t k v).state k = Except.ok (some v) ∧
    SledTree.contains_key ks (SledTree.insert ks t k v).state k = true ∧
    ∃ a x, SledTree.last ks (SledTree.insert ks t k v).state = Except.ok (some (a, x)) ∧
      ∀ bk ∈ (SledTree.insert ks t k v).state.tree.map Prod.fst,
        bk = ks.serializeKey a ∨ bsLt bk (ks.serializeKey a) = true := by
  have hstate : (SledTree.insert ks t k v).state.tree =
      (treeInsert (ks.serializeKey k) (ks.serializeValue v) t.tree).1 := by
    rw [SledTree.insert]
    cases (treeInsert (ks.serializeKey k) (ks.serializeValue v) t.tree).2 with
    | none => rfl
    | some prev =>
      simp only []
      cases ks.deserializeValue prev <;> rfl
  have hfind : treeFindEntry (ks.serializeKey k) (SledTree.insert ks t k v).state.tree
      = some (ks.serializeKey k, ks.serializeValue v) := by
    rw [hstate, treeFindEntry]
    exact treeInsert_find_self (ks.serializeKey k) (ks.serializeValue v) t.tree
  refine ⟨?_, ?_, ?_⟩
  · rw [SledTree.get, hfind]
    simp only []
    rw [hdv v]
  · rw [SledTree.contains_key, hfind]
    rfl
  · have hne : (SledTree.insert ks t k v).state.tree ≠ [] := by
      rw [hstate]
      exact treeInsert_ne_nil _ _ _
    cases hgl : (SledTree.insert ks t k v).state.tree.getLast? with
    | none => exact absurd (List.getLast?_eq_none_iff.mp hgl) hne
    | some kv =>
      have hkvm : kv ∈ (SledTree.insert ks t k v).state.tree :=
        List.mem_of_getLast?_eq_some hgl
      have hwf2 : treeWf ks (SledTree.insert ks t k v).state.tree := by
        rw [hstate]
        intro e he
        rcases treeInsert_mem _ _ _ e he with he | he
        · exact ⟨k, v, by rw [he]; exact hdk k, by rw [he], by rw [he]; exact hdv v,
            by rw [he]⟩
        · exact hwf e he
      have hsort2 : treeSorted (SledTree.insert ks t k v).state.tree := by
        rw [hstate]
        exact treeInsert_sorted _ _ _ hs
      rcases hwf2 kv hkvm with ⟨a, x, hdka, hska, hdvx, hsvx⟩
      refine ⟨a, x, ?_, ?_⟩
      · rw [SledTree.last]
        rw [show serializeRange ks
            ((SBound.unbounded : SBound K), (SBound.unbounded : SBound K))
            = ((SBound.unbounded : SBound Bytes), (SBound.unbounded : SBound Bytes))
          from rfl]
        rw [rangeEntries_full, hgl]
        simp only []
        rw [hdka, hdvx]
      · intro bk hbk
        rcases List.mem_map.mp hbk with ⟨f, hf, hfbk⟩
        rcases sorted_getLast_max (SledTree.insert ks t k v).state.tree hsort2 kv
            hgl f hf with hfe | hlt
        · left
          rw [← hfbk, hfe, hska]
        · right
          rw [← hfbk, hska]
          exact hlt

/-- Witness for C8: inserting `(5, 7)` into an empty tree. -/
theorem C8_witness :
    SledTree.get natKS
      (SledTree.insert natKS { name := "t8", sync := true, tree := [] } 5 7).state 5
      = Except.ok (some 7) ∧
    SledTree.contains_key natKS
      (SledTree.insert natKS { name := "t8", sync := true, tree := [] } 5 7).state 5
      = true ∧
    ∃ a x, SledTree.last natKS
        (SledTree.insert natKS { name := "t8", sync := true, tree := [] } 5 7).state
        = Except.ok (some (a, x)) ∧
      ∀ bk ∈ (SledTree.insert natKS
          { name := "t8", sync := true, tree := [] } 5 7).state.tree.map Prod.fst,
        bk = natKS.serializeKey a ∨ bsLt bk (natKS.serializeKey a) = true :=
  C8_insert_get_last natKS (fun a => rfl) (fun x => rfl)
    { name := "t8", sync := true, tree := [] } List.Pairwise.nil
    (fun e he => absurd he (List.not_mem_nil e)) 5 7

end DatabendSpec
